import Mathlib

/-!
# Verification of the `simframework` discrete-event scheduler

Shallow embedding of `src/simframework/scope.py`, `src/simframework/event.py`
and `src/simframework/scheduler.py`.

Modelling conventions:
* `datetime.datetime` values are modelled as `Int` timestamps and
  `datetime.timedelta` values as `Int` second counts: the scheduler only
  compares times and adds durations, so any linearly ordered additive model
  is faithful; claims never depend on sub-second fractions.
* Python object identity (`is`) on `Scope` is modelled by tagging every
  scope allocation with an object id `oid`; two references are the same
  object exactly when the values (including `oid`s, recursively) coincide.
* The scheduler's heap is Python's `heapq` over the list `_queue`, embedded
  index-for-index (`siftdownLoop`/`siftupLoop` mirror `heapq._siftdown` /
  `heapq._siftup` from CPython, which `heappush`/`heappop` call).
* `Event` is the dataclass from `event.py`; its declared fields are `data`
  (modelled by an opaque `Nat` payload tag), `timespan`, `scope` and
  `entity_anchor`.  `scheduler.py` additionally reads and writes a `system`
  attribute that the dataclass does not declare; Python creates it
  dynamically on first assignment, so it is modelled by `systemAttr :
  Option Entity` where `none` means the attribute does not exist and
  reading it raises `AttributeError`.
* Each scheduler operation returns its Python return value as
  `Except PyErr _` together with the post-state; a raised exception leaves
  the state exactly as it was at the raise point (which is the input state
  for every operation except `pop_event`, whose scan mutates the heap
  before the attribute read that can raise).
-/

set_option maxHeartbeats 1000000

namespace SimFramework

/-- A scope from `scope.py`: `name`, optional `parent`, and an allocation
tag `oid` modelling Python object identity (reference equality `is` holds
iff the whole reference, `oid` included, is the same). The `properties` and
`children` fields never influence scheduler behaviour and are omitted. -/
inductive Scope where
  | root (oid : Nat) (name : String)
  | child (oid : Nat) (name : String) (parent : Scope)
deriving DecidableEq, Repr

def Scope.parent : Scope → Option Scope
  | .root _ _ => none
  | .child _ _ p => some p

def Scope.name : Scope → String
  | .root _ n => n
  | .child _ n _ => n

/-- `Scope.full_path` from `scope.py`: parent path joined with `/`. -/
def Scope.full_path : Scope → String
  | .root _ n => n
  | .child _ n p => p.full_path ++ "/" ++ n

/-- `Scope.__eq__` from `scope.py`: equality of computed full paths. -/
def scopeEq (a b : Scope) : Bool := a.full_path == b.full_path

/-- `Scope.is_ancestor_of` from `scope.py`: walk `other`'s parent chain
looking for a reference-equal (`is`) match with `self`. -/
def Scope.is_ancestor_of (self other : Scope) : Bool :=
  match other with
  | .root _ _ => false
  | .child _ _ p => p == self || self.is_ancestor_of p

/-- An entity (`entity.py`); the scheduler only ever compares entities with
`==`, so the dataclass field contents are abstracted into one tag. -/
structure Entity where
  eid : Nat
deriving DecidableEq, Repr

/-- The `Event` dataclass from `event.py`, plus the dynamically created
`system` attribute used by `scheduler.py` (see module docstring). -/
structure Event where
  /-- stands for the opaque `data` payload dict -/
  data : Nat
  timespan : Int
  scope : Option Scope
  entity_anchor : Option Entity
  /-- the undeclared `system` attribute; `none` = attribute absent -/
  systemAttr : Option Entity
deriving DecidableEq, Repr

/-- `Event(data=data)` as constructed by `Scheduler.schedule`: all other
fields take their dataclass defaults and no `system` attribute exists. -/
def freshEvent (data : Nat) : Event :=
  { data := data, timespan := 0, scope := none, entity_anchor := none,
    systemAttr := none }

/-- A queue entry `(run_at, counter, event)` as stored in `Scheduler._queue`. -/
structure Entry where
  time : Int
  idx : Nat
  ev : Event
deriving DecidableEq, Repr

instance : Inhabited Event := ⟨freshEvent 0⟩
instance : Inhabited Entry := ⟨⟨0, 0, freshEvent 0⟩⟩

/-- Python tuple comparison `(run_at, idx, event) < (run_at', idx', event')`.
Sequence ids in a queue are pairwise distinct, so CPython never reaches the
event component (whose comparison would raise); the embedding therefore
compares the `(time, idx)` key only. -/
def entryLt (a b : Entry) : Bool :=
  a.time < b.time || (a.time == b.time && a.idx < b.idx)

def entryLe (a b : Entry) : Prop :=
  a.time < b.time ∨ (a.time = b.time ∧ a.idx ≤ b.idx)

instance : DecidablePred fun p : Entry × Entry => entryLe p.1 p.2 := by
  intro p; unfold entryLe; infer_instance

instance (a b : Entry) : Decidable (entryLe a b) := by
  unfold entryLe; infer_instance

theorem entryLt_iff_not_le {a b : Entry} : entryLt a b = true ↔ ¬ entryLe b a := by
  unfold entryLt entryLe
  simp only [Bool.or_eq_true, Bool.and_eq_true, decide_eq_true_eq, beq_iff_eq]
  omega

theorem entryLe_total (a b : Entry) : entryLe a b ∨ entryLe b a := by
  unfold entryLe; omega

theorem entryLe_trans {a b c : Entry} (h₁ : entryLe a b) (h₂ : entryLe b c) :
    entryLe a c := by
  unfold entryLe at *; omega

theorem entryLe_refl (a : Entry) : entryLe a a := by
  unfold entryLe; omega

/-! ## CPython `heapq` over `List Entry`

`scheduler.py` uses `heappush`/`heappop`/`heapify` from the standard
library; the queue list itself is also iterated directly (`peek_events`),
indexed (`run` reads `self._queue[0]`) and sorted (`get_events`), so the
physical array layout matters and is embedded index-for-index. -/

/-- `heapq._siftdown(heap, startpos, pos)` after `newitem = heap[pos]` has
been read: walk up from `pos`, moving parents down while `newitem` is
smaller, finally store `newitem`. -/
def siftdownLoop (heap : List Entry) (startpos pos : Nat) (newitem : Entry) :
    List Entry :=
  if startpos < pos then
    let parentpos := (pos - 1) / 2
    let parent := heap.getD parentpos default
    if entryLt newitem parent then
      siftdownLoop (heap.set pos parent) startpos parentpos newitem
    else
      heap.set pos newitem
  else
    heap.set pos newitem
termination_by pos
decreasing_by omega

/-- `heapq._siftdown(heap, startpos, pos)`. -/
def siftdown (heap : List Entry) (startpos pos : Nat) : List Entry :=
  siftdownLoop heap startpos pos (heap.getD pos default)

/-- The loop of `heapq._siftup(heap, pos)`: bubble the smaller child up
into the hole until a leaf is reached, then place `newitem` there and
restore with `_siftdown`. -/
def siftupLoop (heap : List Entry) (startpos pos : Nat) (newitem : Entry) :
    List Entry :=
  let endpos := heap.length
  let childpos := 2 * pos + 1
  if h : childpos < endpos then
    let rightpos := childpos + 1
    let childpos :=
      if rightpos < endpos &&
          !entryLt (heap.getD childpos default) (heap.getD rightpos default)
      then rightpos else childpos
    siftupLoop (heap.set pos (heap.getD childpos default)) startpos childpos
      newitem
  else
    siftdownLoop heap startpos pos newitem
termination_by heap.length - pos
decreasing_by
  simp only [List.length_set]
  split <;> omega

/-- `heapq._siftup(heap, pos)`. -/
def siftup (heap : List Entry) (pos : Nat) : List Entry :=
  siftupLoop heap pos pos (heap.getD pos default)

/-- `heapq.heappush(heap, item)`: append then `_siftdown(heap, 0, len-1)`. -/
def heappush (heap : List Entry) (item : Entry) : List Entry :=
  siftdown (heap ++ [item]) 0 heap.length

/-- `heapq.heappop(heap)`: `lastelt = heap.pop()`; if entries remain,
return `heap[0]` after moving `lastelt` to the root and `_siftup(heap, 0)`.
Returns `none` on an empty list (CPython raises `IndexError`; every caller
in `scheduler.py` guards on non-emptiness first). -/
def heappop (heap : List Entry) : Option Entry × List Entry :=
  match h : heap.getLast? with
  | none => (none, [])
  | some lastelt =>
    let rest := heap.dropLast
    if rest.isEmpty then (some lastelt, [])
    else (some (rest.getD 0 default), siftup (rest.set 0 lastelt) 0)

/-- The loop of `heapq.heapify(x)`: `for i in reversed(range(n//2)): _siftup(x, i)`. -/
def heapifyLoop (heap : List Entry) : Nat → List Entry
  | 0 => heap
  | i + 1 => heapifyLoop (siftup heap i) i

/-- `heapq.heapify(x)`. -/
def heapify (heap : List Entry) : List Entry :=
  heapifyLoop heap (heap.length / 2)

/-! ### List update helpers -/

theorem getD_set_self {α : Type} {l : List α} {i : Nat} (h : i < l.length)
    (x d : α) : (l.set i x).getD i d = x := by
  rw [List.getD_eq_getElem _ d (by simpa using h)]
  simp [List.getElem_set_self]

theorem getD_set_ne {α : Type} {l : List α} {i j : Nat} (h : i ≠ j) (x d : α) :
    (l.set i x).getD j d = l.getD j d := by
  by_cases hj : j < l.length
  · rw [List.getD_eq_getElem _ d (by simpa using hj), List.getD_eq_getElem _ d hj]
    exact List.getElem_set_ne h _
  · have hj' : ¬ j < (l.set i x).length := by simpa using hj
    rw [List.getD_eq_default _ d (by omega), List.getD_eq_default _ d (by omega)]

theorem set_getD_self {α : Type} {l : List α} {n : Nat} (h : n < l.length)
    (d : α) : l.set n (l.getD n d) = l := by
  rw [List.getD_eq_getElem l d h, List.set_eq_take_cons_drop _ h,
    List.getElem_cons_drop l n h, List.take_append_drop]

theorem set_perm {α : Type} {l : List α} {n : Nat} (h : n < l.length) (a : α) :
    (l.set n a).Perm (a :: l.eraseIdx n) := by
  rw [List.set_eq_take_cons_drop _ h, List.eraseIdx_eq_take_drop_succ]
  exact List.perm_middle

theorem perm_getD_cons_eraseIdx {α : Type} {l : List α} {n : Nat}
    (h : n < l.length) (d : α) : l.Perm (l.getD n d :: l.eraseIdx n) := by
  conv_lhs => rw [← set_getD_self h d]
  exact set_perm h _

/-- Swapping a value out to another position is a permutation:
writing `l[j]` into slot `i` and then `y` into slot `j` permutes
writing `y` into slot `i` directly. -/
theorem set_set_perm {α : Type} (d : α) :
    ∀ (l : List α) (i j : Nat), i < l.length → j < l.length → i ≠ j →
      ∀ y : α, ((l.set i (l.getD j d)).set j y).Perm (l.set i y)
  | [], _, _, hi, _, _, _ => by simp at hi
  | a :: t, 0, 0, _, _, hne, _ => absurd rfl hne
  | a :: t, 0, j + 1, hi, hj, _, y => by
    have hj' : j < t.length := by simpa using hj
    simp only [List.getD_cons_succ, List.set_cons_zero, List.set_cons_succ]
    refine (((set_perm hj' y).cons _).trans ?_)
    refine (List.Perm.swap _ _ _).trans ?_
    exact ((perm_getD_cons_eraseIdx hj' d).symm).cons _
  | a :: t, i + 1, 0, hi, _, _, y => by
    have hi' : i < t.length := by simpa using hi
    simp only [List.getD_cons_zero, List.set_cons_succ, List.set_cons_zero]
    refine (((set_perm hi' a).cons _).trans ?_)
    refine (List.Perm.swap _ _ _).trans ?_
    exact ((set_perm hi' y).symm).cons _
  | a :: t, i + 1, j + 1, hi, hj, hne, y => by
    have hi' : i < t.length := by simpa using hi
    have hj' : j < t.length := by simpa using hj
    have hne' : i ≠ j := by omega
    simp only [List.getD_cons_succ, List.set_cons_succ]
    exact (set_set_perm d t i j hi' hj' hne' y).cons _

/-! ### The sift operations permute the array -/

theorem siftdownLoop_perm (startpos : Nat) :
    ∀ (pos : Nat) (heap : List Entry) (newitem : Entry), pos < heap.length →
      (siftdownLoop heap startpos pos newitem).Perm (heap.set pos newitem) := by
  intro pos
  induction pos using Nat.strong_induction_on with
  | _ pos ih =>
    intro heap newitem hpos
    unfold siftdownLoop
    dsimp only
    split
    · next hsp =>
      split
      · next hlt =>
        have hpp : (pos - 1) / 2 < pos := by omega
        have hpplen : (pos - 1) / 2 < (heap.set pos (heap.getD ((pos - 1) / 2) default)).length := by
          simp only [List.length_set]; omega
        refine (ih _ hpp _ _ hpplen).trans ?_
        have hne : pos ≠ (pos - 1) / 2 := by omega
        have := set_set_perm (default : Entry) heap pos ((pos - 1) / 2) hpos
          (by omega) hne newitem
        simpa using this
      · exact List.Perm.refl _
    · exact List.Perm.refl _

theorem length_siftdownLoop (startpos : Nat) :
    ∀ (pos : Nat) (heap : List Entry) (newitem : Entry),
      (siftdownLoop heap startpos pos newitem).length = heap.length := by
  intro pos
  induction pos using Nat.strong_induction_on with
  | _ pos ih =>
    intro heap newitem
    unfold siftdownLoop
    dsimp only
    split
    · split
      · next hlt =>
        rw [ih _ (by omega)]
        simp
      · simp
    · simp

theorem siftupLoop_perm (startpos : Nat) :
    ∀ (fuel pos : Nat) (heap : List Entry) (newitem : Entry),
      heap.length - pos ≤ fuel → pos < heap.length →
      (siftupLoop heap startpos pos newitem).Perm (heap.set pos newitem) := by
  intro fuel
  induction fuel with
  | zero => intro pos heap newitem hf hp; omega
  | succ n ih =>
    intro pos heap newitem hf hp
    unfold siftupLoop
    dsimp only
    split
    · next hchild =>
      set childpos := if (2 * pos + 1 + 1 < heap.length &&
          !entryLt (heap.getD (2 * pos + 1) default)
            (heap.getD (2 * pos + 1 + 1) default)) = true
        then 2 * pos + 1 + 1 else 2 * pos + 1 with hcp
      have hcpl : childpos < heap.length := by
        rw [hcp]; split
        · next hb =>
          simp only [Bool.and_eq_true, decide_eq_true_eq] at hb
          exact hb.1
        · exact hchild
      have hcpgt : pos < childpos := by rw [hcp]; split <;> omega
      have h1 : (heap.set pos (heap.getD childpos default)).length - childpos ≤ n := by
        simp only [List.length_set]; omega
      have h2 : childpos < (heap.set pos (heap.getD childpos default)).length := by
        simp only [List.length_set]; omega
      refine (ih childpos _ newitem h1 h2).trans ?_
      exact set_set_perm default heap pos childpos hp hcpl (by omega) newitem
    · exact siftdownLoop_perm startpos pos heap newitem hp

theorem siftup_perm {heap : List Entry} {pos : Nat} (h : pos < heap.length) :
    (siftup heap pos).Perm heap := by
  unfold siftup
  refine (siftupLoop_perm pos heap.length pos heap _ (by omega) h).trans ?_
  rw [set_getD_self h]

theorem siftdown_perm {heap : List Entry} {startpos pos : Nat}
    (h : pos < heap.length) : (siftdown heap startpos pos).Perm heap := by
  unfold siftdown
  refine (siftdownLoop_perm startpos pos heap _ h).trans ?_
  rw [set_getD_self h]

theorem heappush_perm (heap : List Entry) (item : Entry) :
    (heappush heap item).Perm (item :: heap) := by
  unfold heappush
  refine (siftdown_perm ?_).trans (List.perm_append_singleton item heap)
  simp

theorem heappop_empty : heappop [] = (none, []) := rfl

theorem getD_append_left {α : Type} {l₁ l₂ : List α} {n : Nat}
    (h : n < l₁.length) (d : α) : (l₁ ++ l₂).getD n d = l₁.getD n d := by
  rw [List.getD_eq_getElem _ d (by simp; omega), List.getD_eq_getElem _ d h]
  exact List.getElem_append_left h

theorem heappop_split {heap : List Entry} {lastelt : Entry}
    (hl : heap.getLast? = some lastelt) : heap.dropLast ++ [lastelt] = heap := by
  have h : heap ≠ [] := by
    intro hnil; rw [hnil] at hl; simp at hl
  have h1 := List.getLast?_eq_getLast heap h
  rw [hl] at h1
  have hlast : heap.getLast h = lastelt := (Option.some.inj h1).symm
  rw [← hlast]
  exact List.dropLast_append_getLast h

theorem heappop_fst {heap : List Entry} (h : heap ≠ []) :
    (heappop heap).1 = some (heap.getD 0 default) := by
  unfold heappop
  split
  · next hl =>
    rw [List.getLast?_eq_none_iff] at hl
    exact absurd hl h
  · next lastelt hl =>
    have hsplit := heappop_split hl
    by_cases hrest : heap.dropLast.isEmpty
    · have hnil : heap.dropLast = [] := List.isEmpty_iff.mp hrest
      rw [hnil] at hsplit
      simp only [hrest, if_true]
      rw [← hsplit]
      rfl
    · simp only [hrest]
      simp only [if_false, Bool.false_eq_true]
      have h0 : 0 < heap.dropLast.length := by
        rcases Nat.eq_zero_or_pos heap.dropLast.length with h0 | h0
        · exact absurd (List.isEmpty_iff_length_eq_zero.mpr h0) (by simpa using hrest)
        · exact h0
      conv_rhs => rw [← hsplit]
      rw [getD_append_left h0]

theorem heappop_perm {heap : List Entry} (h : heap ≠ []) :
    heap.Perm (heap.getD 0 default :: (heappop heap).2) := by
  unfold heappop
  split
  · next hl =>
    rw [List.getLast?_eq_none_iff] at hl
    exact absurd hl h
  · next lastelt hl =>
    have hsplit := heappop_split hl
    by_cases hrest : heap.dropLast.isEmpty
    · have hnil : heap.dropLast = [] := List.isEmpty_iff.mp hrest
      rw [hnil] at hsplit
      simp only [hrest, if_true]
      rw [← hsplit]
      exact List.Perm.refl _
    · simp only [hrest]
      simp only [if_false, Bool.false_eq_true]
      have h0 : 0 < heap.dropLast.length := by
        rcases Nat.eq_zero_or_pos heap.dropLast.length with h0 | h0
        · exact absurd (List.isEmpty_iff_length_eq_zero.mpr h0) (by simpa using hrest)
        · exact h0
      have hset : 0 < (heap.dropLast.set 0 lastelt).length := by simpa using h0
      have h2 : (siftup (heap.dropLast.set 0 lastelt) 0).Perm
          (lastelt :: heap.dropLast.eraseIdx 0) :=
        (siftup_perm hset).trans (set_perm h0 _)
      have hgd : heap.getD 0 default = heap.dropLast.getD 0 default := by
        conv_lhs => rw [← hsplit]
        rw [getD_append_left h0]
      rw [hgd]
      have hA : heap.Perm (lastelt :: heap.dropLast) := by
        conv_lhs => rw [← hsplit]
        exact List.perm_append_singleton _ _
      refine hA.trans ?_
      refine (List.Perm.cons lastelt (perm_getD_cons_eraseIdx h0 default)).trans ?_
      refine (List.Perm.swap _ _ _).trans ?_
      exact List.Perm.cons _ h2.symm

theorem heappop_length {heap : List Entry} (h : heap ≠ []) :
    (heappop heap).2.length + 1 = heap.length := by
  have := (heappop_perm h).length_eq
  simpa using this.symm

theorem heapifyLoop_perm :
    ∀ (k : Nat) (heap : List Entry), k ≤ heap.length →
      (heapifyLoop heap k).Perm heap := by
  intro k
  induction k with
  | zero => intro heap _; exact List.Perm.refl _
  | succ n ih =>
    intro heap hk
    unfold heapifyLoop
    have hn : n < heap.length := by omega
    have hperm := siftup_perm hn
    refine (ih (siftup heap n) ?_).trans hperm
    rw [hperm.length_eq]; omega

theorem heapify_perm (heap : List Entry) : (heapify heap).Perm heap := by
  unfold heapify
  exact heapifyLoop_perm _ heap (by omega)

/-! ### Heap-order correctness of `heappush` / `heappop` -/

theorem entryLe_of_lt {a b : Entry} (h : entryLt a b = true) : entryLe a b := by
  unfold entryLt at h
  unfold entryLe
  simp only [Bool.or_eq_true, Bool.and_eq_true, decide_eq_true_eq, beq_iff_eq] at h
  omega

theorem entryLe_of_not_lt {a b : Entry} (h : ¬ entryLt a b = true) : entryLe b a := by
  by_contra h'
  exact h (entryLt_iff_not_le.mpr h')

/-- The binary-heap invariant of a Python `heapq` array: every non-root
position is at least its parent at `(i-1)/2`. -/
def IsHeap (l : List Entry) : Prop :=
  ∀ i, 0 < i → i < l.length →
    entryLe (l.getD ((i - 1) / 2) default) (l.getD i default)

theorem isHeap_nil : IsHeap [] := by
  intro i _ h
  simp at h

theorem isHeap_root_le {l : List Entry} (hh : IsHeap l) :
    ∀ j, j < l.length → entryLe (l.getD 0 default) (l.getD j default) := by
  intro j
  induction j using Nat.strong_induction_on with
  | _ j ih =>
    intro hj
    rcases Nat.eq_zero_or_pos j with h0 | h0
    · subst h0; exact entryLe_refl _
    · exact entryLe_trans (ih ((j - 1) / 2) (by omega) (by omega)) (hh j h0 hj)

/-- Heap restoration by `_siftdown` (with `startpos = 0`): if the array is
a heap everywhere except around the hole at `pos`, the hole's children
dominate `newitem`, and (when the hole is not the root) the hole's children
dominate the hole's parent, then the loop yields a heap. -/
theorem siftdownLoop_isHeap :
    ∀ (pos : Nat) (heap : List Entry) (newitem : Entry), pos < heap.length →
      (∀ j, 0 < j → j < heap.length → j ≠ pos → (j - 1) / 2 ≠ pos →
        entryLe (heap.getD ((j - 1) / 2) default) (heap.getD j default)) →
      (∀ j, 0 < j → j < heap.length → (j - 1) / 2 = pos →
        entryLe newitem (heap.getD j default)) →
      (0 < pos → ∀ j, 0 < j → j < heap.length → (j - 1) / 2 = pos →
        entryLe (heap.getD ((pos - 1) / 2) default) (heap.getD j default)) →
      IsHeap (siftdownLoop heap 0 pos newitem) := by
  intro pos
  induction pos using Nat.strong_induction_on with
  | _ pos ih =>
    intro heap newitem hpos hA hB hC
    unfold siftdownLoop
    dsimp only
    split
    · next hsp =>
      -- 0 < pos
      split
      · next hlt =>
        -- newitem < heap[(pos-1)/2]: move the parent down, recurse at the parent
        set pp := (pos - 1) / 2 with hpp
        have hpplt : pp < pos := by omega
        have hpplen : pp < heap.length := by omega
        refine ih pp hpplt _ newitem (by simpa using hpplen) ?_ ?_ ?_
        · -- (A) for the updated array and hole pp
          intro j hj0 hjlen hjne hjpar
          simp only [List.length_set] at hjlen
          by_cases hjp : j = pos
          · -- pair ((pos-1)/2 = pp, pos): excluded since (j-1)/2 = pp is excluded
            exact absurd (by omega : (j - 1) / 2 = pp) hjpar
          · by_cases hjpar2 : (j - 1) / 2 = pos
            · -- j is a child of the old hole: use (C)
              rw [hjpar2, getD_set_self hpos _, getD_set_ne (by omega) _ _]
              exact hC (by omega) j hj0 hjlen hjpar2
            · -- untouched pair
              rw [getD_set_ne (by omega) _ _, getD_set_ne (by omega) _ _]
              exact hA j hj0 hjlen hjp hjpar2
        · -- (B): children of the new hole pp dominate newitem
          intro j hj0 hjlen hjpar
          simp only [List.length_set] at hjlen
          by_cases hjp : j = pos
          · subst hjp
            rw [getD_set_self hpos _]
            exact entryLe_of_lt hlt
          · rw [getD_set_ne (by omega) _ _]
            have hsib : entryLe (heap.getD pp default) (heap.getD j default) := by
              have := hA j hj0 hjlen hjp (by omega)
              rwa [hjpar] at this
            exact entryLe_trans (entryLe_of_lt hlt) hsib
        · -- (C): children of the new hole pp dominate the parent of pp
          intro hpp0 j hj0 hjlen hjpar
          simp only [List.length_set] at hjlen
          have hgpar : (pp - 1) / 2 ≠ pos := by omega
          have hgplt : entryLe (heap.getD ((pp - 1) / 2) default)
              (heap.getD pp default) := hA pp (by omega) hpplen (by omega) (by omega)
          by_cases hjp : j = pos
          · subst hjp
            rw [getD_set_ne (by omega) _ _, getD_set_self hpos _]
            exact hgplt
          · rw [getD_set_ne (by omega) _ _, getD_set_ne (by omega) _ _]
            have hsib : entryLe (heap.getD pp default) (heap.getD j default) := by
              have := hA j hj0 hjlen hjp (by omega)
              rwa [hjpar] at this
            exact entryLe_trans hgplt hsib
      · next hnlt =>
        -- early exit: heap[(pos-1)/2] ≤ newitem; write newitem at pos
        intro j hj0 hjlen
        simp only [List.length_set] at hjlen
        by_cases hjp : j = pos
        · subst hjp
          rw [getD_set_ne (by omega) _ _, getD_set_self hpos _]
          exact entryLe_of_not_lt (by simpa using hnlt)
        · by_cases hjpar : (j - 1) / 2 = pos
          · rw [hjpar, getD_set_self hpos _, getD_set_ne (by omega) _ _]
            exact hB j hj0 hjlen hjpar
          · rw [getD_set_ne (by omega) _ _, getD_set_ne (by omega) _ _]
            exact hA j hj0 hjlen hjp hjpar
    · next hsp =>
      -- pos = 0: write newitem at the root
      have hpos0 : pos = 0 := by omega
      subst hpos0
      intro j hj0 hjlen
      simp only [List.length_set] at hjlen
      by_cases hjpar : (j - 1) / 2 = 0
      · rw [hjpar, getD_set_self hpos _, getD_set_ne (by omega) _ _]
        exact hB j hj0 hjlen hjpar
      · rw [getD_set_ne (by omega) _ _, getD_set_ne (by omega) _ _]
        exact hA j hj0 hjlen (by omega) hjpar

/-- `heappush` preserves the heap invariant. -/
theorem heappush_isHeap {heap : List Entry} (hh : IsHeap heap) (item : Entry) :
    IsHeap (heappush heap item) := by
  unfold heappush siftdown
  have hlen : heap.length < (heap ++ [item]).length := by simp
  have hget : (heap ++ [item]).getD heap.length default = item := by
    rw [List.getD_eq_getElem _ _ (by simp)]
    simp
  rw [hget]
  refine siftdownLoop_isHeap heap.length _ item (by simp) ?_ ?_ ?_
  · intro j hj0 hjlen hjne hjpar
    simp only [List.length_append, List.length_cons, List.length_nil] at hjlen
    have hjlt : j < heap.length := by omega
    rw [getD_append_left hjlt, getD_append_left (by omega)]
    exact hh j hj0 hjlt
  · intro j hj0 hjlen hjpar
    simp only [List.length_append, List.length_cons, List.length_nil] at hjlen
    omega
  · intro h0 j hj0 hjlen hjpar
    simp only [List.length_append, List.length_cons, List.length_nil] at hjlen
    omega

/-- Heap restoration by the `_siftup` walk (with `startpos = 0`): if the
array is a heap everywhere except around the hole at `pos` and (when the
hole is not the root) the hole's children dominate the hole's parent, the
walk-down-then-sift-up yields a heap. -/
theorem siftupLoop_isHeap :
    ∀ (fuel pos : Nat) (heap : List Entry) (newitem : Entry),
      heap.length - pos ≤ fuel → pos < heap.length →
      (∀ j, 0 < j → j < heap.length → j ≠ pos → (j - 1) / 2 ≠ pos →
        entryLe (heap.getD ((j - 1) / 2) default) (heap.getD j default)) →
      (0 < pos → ∀ j, 0 < j → j < heap.length → (j - 1) / 2 = pos →
        entryLe (heap.getD ((pos - 1) / 2) default) (heap.getD j default)) →
      IsHeap (siftupLoop heap 0 pos newitem) := by
  intro fuel
  induction fuel with
  | zero => intro pos heap newitem hf hp; omega
  | succ n ih =>
    intro pos heap newitem hf hp hA hC
    unfold siftupLoop
    dsimp only
    split
    · next hchild =>
      -- common continuation, for either choice of the smaller child cp
      have key : ∀ cp, cp < heap.length → pos < cp → (cp - 1) / 2 = pos →
          (∀ j, 0 < j → j < heap.length → (j - 1) / 2 = pos → j ≠ cp →
            entryLe (heap.getD cp default) (heap.getD j default)) →
          IsHeap (siftupLoop (heap.set pos (heap.getD cp default)) 0 cp
            newitem) := by
        intro cp hcpl hcpgt hcppar hmin
        refine ih cp _ newitem (by simp only [List.length_set]; omega)
          (by simp only [List.length_set]; omega) ?_ ?_
        · intro j hj0 hjlen hjne hjpar
          simp only [List.length_set] at hjlen
          by_cases hjp : j = pos
          · subst hjp
            have hj0' : 0 < j := hj0
            rw [getD_set_ne (by omega) _ _, getD_set_self hp _]
            exact hC hj0 cp (by omega) hcpl hcppar
          · by_cases hjpar2 : (j - 1) / 2 = pos
            · rw [hjpar2, getD_set_self hp _, getD_set_ne (by omega) _ _]
              exact hmin j hj0 hjlen hjpar2 hjne
            · rw [getD_set_ne (by omega) _ _, getD_set_ne (by omega) _ _]
              exact hA j hj0 hjlen hjp hjpar2
        · intro hcp0 j hj0 hjlen hjpar
          simp only [List.length_set] at hjlen
          rw [hcppar, getD_set_self hp _, getD_set_ne (by omega) _ _]
          have := hA j hj0 hjlen (by omega) (by omega)
          rwa [hjpar] at this
      split
      · next hb =>
        simp only [Bool.and_eq_true, decide_eq_true_eq, Bool.not_eq_true']
          at hb
        refine key (2 * pos + 1 + 1) hb.1 (by omega) (by omega) ?_
        intro j hj0 hjlen hjpar hjne
        have hj1 : j = 2 * pos + 1 := by omega
        subst hj1
        exact entryLe_of_not_lt (by rw [hb.2]; exact Bool.false_ne_true)
      · next hb =>
        refine key (2 * pos + 1) hchild (by omega) (by omega) ?_
        intro j hj0 hjlen hjpar hjne
        have hj2 : j = 2 * pos + 1 + 1 := by omega
        subst hj2
        have hb' : ¬ (2 * pos + 1 + 1 < heap.length) ∨
            entryLt (heap.getD (2 * pos + 1) default)
              (heap.getD (2 * pos + 1 + 1) default) = true := by
          by_contra hcon
          push_neg at hcon
          exact hb (by
            simp only [Bool.and_eq_true, decide_eq_true_eq,
              Bool.not_eq_true']
            exact ⟨hcon.1, Bool.eq_false_iff.mpr hcon.2⟩)
        rcases hb' with hb' | hb'
        · omega
        · exact entryLe_of_lt hb'
    · next hchild =>
      -- pos is a leaf: place newitem and restore upward
      refine siftdownLoop_isHeap pos heap newitem hp hA ?_ hC
      intro j hj0 hjlen hjpar
      omega

/-- `heappop` preserves the heap invariant. -/
theorem heappop_isHeap {heap : List Entry} (hh : IsHeap heap) :
    IsHeap (heappop heap).2 := by
  unfold heappop
  split
  · exact isHeap_nil
  · next lastelt hl =>
    have hsplit := heappop_split hl
    by_cases hrest : heap.dropLast.isEmpty
    · simp only [hrest, if_true]
      exact isHeap_nil
    · simp only [hrest]
      simp only [if_false, Bool.false_eq_true]
      have h0 : 0 < heap.dropLast.length := by
        rcases Nat.eq_zero_or_pos heap.dropLast.length with h0 | h0
        · exact absurd (List.isEmpty_iff_length_eq_zero.mpr h0) (by simpa using hrest)
        · exact h0
      have hdl : heap.dropLast.length < heap.length := by
        have := heap.length_dropLast
        have hne : heap.length ≠ 0 := by
          intro hcon
          rw [List.length_eq_zero] at hcon
          rw [hcon] at hl
          simp at hl
        omega
      unfold siftup
      have hset0 : 0 < (heap.dropLast.set 0 lastelt).length := by simpa using h0
      refine siftupLoop_isHeap (heap.dropLast.set 0 lastelt).length 0 _ _
        (by omega) hset0 ?_ ?_
      · intro j hj0 hjlen hjne hjpar
        simp only [List.length_set] at hjlen
        rw [getD_set_ne (by omega) _ _, getD_set_ne (by omega) _ _]
        have hjlt : j < heap.length := by omega
        have hgd1 : heap.dropLast.getD ((j - 1) / 2) default =
            heap.getD ((j - 1) / 2) default := by
          conv_rhs => rw [← hsplit]
          rw [getD_append_left (by omega)]
        have hgd2 : heap.dropLast.getD j default = heap.getD j default := by
          conv_rhs => rw [← hsplit]
          rw [getD_append_left (by omega)]
        rw [hgd1, hgd2]
        exact hh j hj0 hjlt
      · intro h00
        omega

/-! ## The `Scheduler` class (`scheduler.py`) -/

/-- Python exceptions raised by `scheduler.py`:
`ValueError` (negative delay), `TypeError` (unsupported argument type) and
`AttributeError` (reading the undeclared `system` attribute of an `Event`). -/
inductive PyErr where
  | valueError
  | typeError
  | attrError
deriving DecidableEq, Repr

/-- The runtime type of the `delay` / `trigger_time` argument of
`schedule` / `insert_event`: an absolute `datetime.datetime`, a number of
seconds (`int`/`float`), a `datetime.timedelta`, or any other
(unsupported) type. -/
inductive Delay where
  | dt (t : Int)
  | secs (v : Int)
  | td (v : Int)
  | other
deriving DecidableEq, Repr

/-- The runtime type of the `delta` argument of `reschedule_event`:
seconds (`int`/`float`), a `datetime.timedelta`, or an unsupported type. -/
inductive RDelta where
  | secs (v : Int)
  | td (v : Int)
  | other
deriving DecidableEq, Repr

/-- `Scheduler._event_map`: a Python dict from event id to
`(run_at, event)`, modelled as an association list with unique keys
(insertion replaces, `pop` removes; the dict is never iterated, so entry
order is irrelevant to all behaviour). -/
abbrev EMap := List (Nat × Int × Event)

def mapErase (k : Nat) (m : EMap) : EMap :=
  m.filter (fun p => p.1 ≠ k)

def mapInsert (k : Nat) (v : Int × Event) (m : EMap) : EMap :=
  (k, v) :: mapErase k m

def mapFind (k : Nat) (m : EMap) : Option (Int × Event) :=
  (m.find? (fun p => p.1 = k)).map (·.2)

/-- The mutable state of a `Scheduler` object: `_time`, `_queue`,
`_counter`, `_cancelled` and `_event_map`. -/
structure Scheduler where
  time : Int
  queue : List Entry
  counter : Nat
  cancelled : Finset Nat
  eventMap : EMap
deriving DecidableEq

/-- `Scheduler(start_time)` with a valid `datetime` start time. -/
def Scheduler.fresh (start_time : Int) : Scheduler :=
  { time := start_time, queue := [], counter := 0, cancelled := ∅,
    eventMap := [] }

/-- The shared tail of `schedule` and `insert_event`: allocate the id,
`heappush` the entry, record it in `_event_map`, bump `_counter`. -/
def pushEntry (s : Scheduler) (run_at : Int) (ev : Event) :
    (Int × Nat) × Scheduler :=
  let event_id := s.counter
  ((run_at, event_id),
    { s with
        queue := heappush s.queue ⟨run_at, event_id, ev⟩,
        eventMap := mapInsert event_id (run_at, ev) s.eventMap,
        counter := s.counter + 1 })

/-- `Scheduler.schedule(delay, event=None, **data)`.  `data` is the opaque
payload tag given to the synthesized `Event` when `event` is absent.  On an
exception the state is returned unchanged (the checks precede all
mutation). -/
def Scheduler.schedule (s : Scheduler) (delay : Delay) (event : Option Event)
    (data : Nat) : Except PyErr (Int × Nat) × Scheduler :=
  let run_at? : Except PyErr Int :=
    match delay with
    | .dt t => .ok t
    | .secs v => if v < 0 then .error .valueError else .ok (s.time + v)
    | .td v => if v < 0 then .error .valueError else .ok (s.time + v)
    | .other => .error .typeError
  match run_at? with
  | .error e => (.error e, s)
  | .ok run_at =>
    let ev := match event with
      | none => freshEvent data
      | some e => e
    let r := pushEntry s run_at ev
    (.ok r.1, r.2)

/-- `Scheduler.insert_event(event, trigger_time, scope=…, system=…)`.
The `scope`/`system` keyword values are written onto the event before the
`trigger_time` checks (so the event object can be mutated even when the
call then raises, but the scheduler state itself is unchanged).  The
guard `isinstance(event, Event)` cannot fail here because the embedding
types `event` as an `Event`. -/
def Scheduler.insert_event (s : Scheduler) (event : Event)
    (trigger_time : Delay) (scope : Option Scope) (system : Option Entity) :
    Except PyErr (Int × Nat) × Scheduler :=
  let event := match scope with
    | none => event
    | some sc => { event with scope := some sc }
  let event := match system with
    | none => event
    | some sys => { event with systemAttr := some sys }
  match trigger_time with
  | .dt t => let r := pushEntry s t event; (.ok r.1, r.2)
  | .secs v =>
    if v < 0 then (.error .valueError, s)
    else let r := pushEntry s (s.time + v) event; (.ok r.1, r.2)
  | .td v =>
    if v < 0 then (.error .valueError, s)
    else let r := pushEntry s (s.time + v) event; (.ok r.1, r.2)
  | .other => (.error .typeError, s)

/-- Scope matching of `pop_event` (lines 170-179 of `scheduler.py`);
`peek_events` and `get_events` use the same logic in `continue` form. -/
def matchesScope (scope : Option Scope) (incl : Bool) (ev : Event) : Bool :=
  match scope with
  | none => true
  | some sc =>
    match ev.scope with
    | none => false
    | some es =>
      if incl then scopeEq es sc || sc.is_ancestor_of es
      else scopeEq es sc

/-- The read `event.system` guarded by `if system is not None`; returns
`AttributeError` when the attribute was never created on this event. -/
def matchesSystem (system : Option Entity) (ev : Event) :
    Except PyErr Bool :=
  match system with
  | none => .ok true
  | some sys =>
    match ev.systemAttr with
    | none => .error .attrError
    | some a => .ok (a = sys)

/-- `Scheduler.step()`: pop entries until a non-tombstoned one is found;
discard tombstones from `_cancelled` and `_event_map` on the way.  Returns
the full popped entry (the Python method returns only its `Event`). -/
def Scheduler.stepE (s : Scheduler) : Option Entry × Scheduler :=
  if hq : s.queue = [] then (none, s)
  else
    match hp : heappop s.queue with
    | (none, _) => (none, s)
    | (some e, q) =>
      if e.idx ∈ s.cancelled then
        Scheduler.stepE { s with
          queue := q,
          cancelled := s.cancelled.erase e.idx,
          eventMap := mapErase e.idx s.eventMap }
      else
        (some e, { s with
          queue := q,
          time := e.time,
          eventMap := mapErase e.idx s.eventMap })
termination_by s.queue.length
decreasing_by
  have : q.length + 1 = s.queue.length := by
    have h1 : (heappop s.queue).2 = q := by rw [hp]
    rw [← h1]
    exact heappop_length hq
  omega

theorem Scheduler.stepE_queue_lt_aux :
    ∀ (n : Nat) (s : Scheduler), s.queue.length = n → s.queue ≠ [] →
      (Scheduler.stepE s).2.queue.length < s.queue.length := by
  intro n
  induction n using Nat.strong_induction_on with
  | _ n ih =>
    intro s hlen hq
    subst hlen
    unfold Scheduler.stepE
    rw [dif_neg hq]
    split
    · next heq =>
      have := heappop_fst hq
      rw [heq] at this
      simp at this
    · next e q heq =>
      have hq1 : q.length + 1 = s.queue.length := by
        have h1 : (heappop s.queue).2 = q := by rw [heq]
        rw [← h1]
        exact heappop_length hq
      split
      · next hc =>
        by_cases hq2 : q = []
        · subst hq2
          unfold Scheduler.stepE
          rw [dif_pos rfl]
          simp only [List.length_nil] at hq1 ⊢
          omega
        · have h := ih q.length (by omega) ⟨s.time, q, s.counter, s.cancelled.erase e.idx, mapErase e.idx s.eventMap⟩ rfl hq2
          have h2 : (⟨s.time, q, s.counter, s.cancelled.erase e.idx, mapErase e.idx s.eventMap⟩ : Scheduler).queue.length = q.length := rfl
          omega
      · show q.length < s.queue.length
        omega

theorem Scheduler.stepE_queue_lt (s : Scheduler) (hq : s.queue ≠ []) :
    (Scheduler.stepE s).2.queue.length < s.queue.length :=
  Scheduler.stepE_queue_lt_aux s.queue.length s rfl hq

/-- `Scheduler.step()` as in the source: the Event only. -/
def Scheduler.step (s : Scheduler) : Option Event × Scheduler :=
  ((s.stepE).1.map Entry.ev, (s.stepE).2)

/-- The loop of `Scheduler.run(until)`, additionally returning the list of
entries consumed by the `step` calls (the Python loop discards them). -/
def Scheduler.runLoop (s : Scheduler) (until? : Option Int) :
    List Entry × Scheduler :=
  if hq : s.queue = [] then ([], s)
  else
    let next_time := (s.queue.getD 0 default).time
    match until? with
    | some u =>
      if u < next_time then ([], s)
      else
        let r := s.stepE
        let rest := Scheduler.runLoop r.2 until?
        (r.1.toList ++ rest.1, rest.2)
    | none =>
      let r := s.stepE
      let rest := Scheduler.runLoop r.2 until?
      (r.1.toList ++ rest.1, rest.2)
termination_by s.queue.length
decreasing_by
  all_goals exact Scheduler.stepE_queue_lt s hq

/-- `Scheduler.run(until=None)`: loop, then advance `now` to `until` if it
was not reached.  The guard `isinstance(until, datetime)` cannot fail here
because the embedding types `until?` as an optional timestamp. -/
def Scheduler.run (s : Scheduler) (until? : Option Int) : Scheduler :=
  let s := (s.runLoop until?).2
  match until? with
  | some u => if s.time < u then { s with time := u } else s
  | none => s

/-- The scan loop of `Scheduler.pop_event`: pop entries, discarding
tombstones (removing them from `_cancelled` and `_event_map`), holding
non-matching live entries aside in `temp`, until a match is found or the
heap is exhausted.  On `AttributeError` (reading `event.system` of an event
without that attribute) the loop aborts with the current state — the
entries in `temp` are lost, exactly as in the Python code, where the raise
skips the push-back loop.  Note the Python code computes `matches_system`
(and can therefore raise) even when the scope already failed to match. -/
def Scheduler.popLoop (s : Scheduler) (temp : List Entry)
    (scope : Option Scope) (system : Option Entity) (incl : Bool) :
    Except PyErr (Option Entry) × Scheduler × List Entry :=
  if hq : s.queue = [] then (.ok none, s, temp)
  else
    match hp : heappop s.queue with
    | (none, _) => (.ok none, s, temp)
    | (some e, q) =>
      if e.idx ∈ s.cancelled then
        Scheduler.popLoop { s with
            queue := q,
            cancelled := s.cancelled.erase e.idx,
            eventMap := mapErase e.idx s.eventMap } temp scope system incl
      else
        let matches_scope := matchesScope scope incl e.ev
        match matchesSystem system e.ev with
        | .error err => (.error err, { s with queue := q }, temp)
        | .ok matches_system =>
          if matches_scope && matches_system then
            (.ok (some e), { s with queue := q }, temp)
          else
            Scheduler.popLoop { s with queue := q } (temp ++ [e]) scope
              system incl
termination_by s.queue.length
decreasing_by
  all_goals
    have h1 : (heappop s.queue).2 = q := by rw [hp]
    have h2 : q.length + 1 = s.queue.length := by
      rw [← h1]; exact heappop_length hq
    omega

/-- `Scheduler.pop_event(scope=None, *, system=None, include_descendants=False)`,
returning the full entry found (the Python method returns its `Event`).
After the scan the held-aside entries are pushed back, and on success the
found id is removed from `_event_map`. -/
def Scheduler.pop_eventE (s : Scheduler) (scope : Option Scope)
    (system : Option Entity) (incl : Bool) :
    Except PyErr (Option Entry) × Scheduler :=
  if s.queue = [] then (.ok none, s)
  else
    match s.popLoop [] scope system incl with
    | (.error err, st, _temp) => (.error err, st)
    | (.ok found, st, temp) =>
      let st := { st with queue := temp.foldl heappush st.queue }
      match found with
      | none => (.ok none, st)
      | some e => (.ok (some e), { st with eventMap := mapErase e.idx st.eventMap })

/-- `Scheduler.pop_event` as in the source: the Event only. -/
def Scheduler.pop_event (s : Scheduler) (scope : Option Scope)
    (system : Option Entity) (incl : Bool) :
    Except PyErr (Option Event) × Scheduler :=
  let r := s.pop_eventE scope system incl
  (r.1.map (Option.map Entry.ev), r.2)

/-- The `for run_at, idx, event in self._queue` loop of
`Scheduler.peek_events`, iterating the raw heap array in index order.
`acc` is the `result` list; the loop breaks as soon as `len(result) >=
limit`.  Tombstoned entries are skipped; the scope test `continue`s before
the system attribute is read (unlike `pop_event`). -/
def Scheduler.peekLoop (cancelled : Finset Nat) (scope : Option Scope)
    (system : Option Entity) (limit : Option Nat) (incl : Bool) :
    List Entry → List Entry → Except PyErr (List Entry)
  | [], acc => .ok acc
  | e :: rest, acc =>
    if e.idx ∈ cancelled then
      Scheduler.peekLoop cancelled scope system limit incl rest acc
    else if !matchesScope scope incl e.ev then
      Scheduler.peekLoop cancelled scope system limit incl rest acc
    else
      match matchesSystem system e.ev with
      | .error err => .error err
      | .ok ms =>
        if !ms then
          Scheduler.peekLoop cancelled scope system limit incl rest acc
        else
          let acc := acc ++ [e]
          match limit with
          | some n => if n ≤ acc.length then .ok acc
              else Scheduler.peekLoop cancelled scope system limit incl rest acc
          | none => Scheduler.peekLoop cancelled scope system limit incl rest acc

/-- `Scheduler.peek_events(scope=None, system=None, limit=None, *,
include_descendants=True)`, before the final projection that drops `idx`.
The method never mutates the scheduler. -/
def Scheduler.peek_eventsE (s : Scheduler) (scope : Option Scope)
    (system : Option Entity) (limit : Option Nat) (incl : Bool) :
    Except PyErr (List Entry) :=
  Scheduler.peekLoop s.cancelled scope system limit incl s.queue []

/-- `Scheduler.peek_events` as in the source: `(run_at, event)` pairs. -/
def Scheduler.peek_events (s : Scheduler) (scope : Option Scope)
    (system : Option Entity) (limit : Option Nat) (incl : Bool) :
    Except PyErr (List (Int × Event)) :=
  (s.peek_eventsE scope system limit incl).map
    (·.map (fun e => (e.time, e.ev)))

/-- `sorted(self._queue)`: Python sorts the entry tuples ascending by
`(run_at, idx, …)`; ids are distinct so the event field is never compared. -/
def sortQueue (queue : List Entry) : List Entry :=
  queue.mergeSort (fun a b => !entryLt b a)

/-- The loop of `Scheduler.get_events`: like `peek_events` but over
`sorted(self._queue)`, with no limit, collecting full entries. -/
def Scheduler.getLoop (cancelled : Finset Nat) (scope : Option Scope)
    (system : Option Entity) (incl : Bool) :
    List Entry → List Entry → Except PyErr (List Entry)
  | [], acc => .ok acc
  | e :: rest, acc =>
    if e.idx ∈ cancelled then
      Scheduler.getLoop cancelled scope system incl rest acc
    else if !matchesScope scope incl e.ev then
      Scheduler.getLoop cancelled scope system incl rest acc
    else
      match matchesSystem system e.ev with
      | .error err => .error err
      | .ok ms =>
        if !ms then Scheduler.getLoop cancelled scope system incl rest acc
        else Scheduler.getLoop cancelled scope system incl rest (acc ++ [e])

/-- `Scheduler.get_events(scope=None, system=None, *,
include_descendants=True)`: `(event_id, run_at, Event)` triples in sorted
order; the scheduler is not mutated. -/
def Scheduler.get_eventsE (s : Scheduler) (scope : Option Scope)
    (system : Option Entity) (incl : Bool) : Except PyErr (List Entry) :=
  Scheduler.getLoop s.cancelled scope system incl (sortQueue s.queue) []

/-- `Scheduler.get_events` as in the source: `(event_id, run_at, Event)`
triples. -/
def Scheduler.get_events (s : Scheduler) (scope : Option Scope)
    (system : Option Entity) (incl : Bool) :
    Except PyErr (List (Nat × Int × Event)) :=
  (s.get_eventsE scope system incl).map (·.map (fun e => (e.idx, e.time, e.ev)))

/-- `Scheduler.delete_events(scope=None, system=None, *,
include_descendants=True)`: raise unless a filter is given, then mark every
matching id cancelled, counting the ones not already cancelled. -/
def Scheduler.delete_events (s : Scheduler) (scope : Option Scope)
    (system : Option Entity) (incl : Bool) :
    Except PyErr Nat × Scheduler :=
  if scope = none ∧ system = none then (.error .valueError, s)
  else
    match s.get_eventsE scope system incl with
    | .error err => (.error err, s)
    | .ok matching =>
      let r := matching.foldl
        (fun (p : Nat × Finset Nat) e =>
          if e.idx ∈ p.2 then p else (p.1 + 1, insert e.idx p.2))
        (0, s.cancelled)
      (.ok r.1, { s with cancelled := r.2 })

/-- `Scheduler.cancel_event(event_id)`. -/
def Scheduler.cancel_event (s : Scheduler) (event_id : Nat) :
    Bool × Scheduler :=
  if event_id ∈ s.cancelled then (false, s)
  else if (mapFind event_id s.eventMap).isNone then (false, s)
  else (true, { s with cancelled := insert event_id s.cancelled })

/-- `Scheduler.reschedule_event(event_id, delta)`: `None` for unknown or
already-cancelled ids (checked before the delta type check); otherwise
cancel the old id and reinsert the same event at `old_run_at + delta`
under the freshly minted id `_counter`. -/
def Scheduler.reschedule_event (s : Scheduler) (event_id : Nat)
    (delta : RDelta) : Except PyErr (Option (Int × Nat)) × Scheduler :=
  if event_id ∈ s.cancelled then (.ok none, s)
  else
    match mapFind event_id s.eventMap with
    | none => (.ok none, s)
    | some (old_run_at, event) =>
      match delta with
      | .other => (.error .typeError, s)
      | .secs v | .td v =>
        let new_run_at := old_run_at + v
        let new_id := s.counter
        (.ok (some (new_run_at, new_id)),
          { s with
              cancelled := insert event_id s.cancelled,
              queue := heappush s.queue ⟨new_run_at, new_id, event⟩,
              eventMap := mapInsert new_id (new_run_at, event) s.eventMap,
              counter := s.counter + 1 })

/-- `Scheduler.cleanup()`: drop tombstoned entries from the heap, drop
their ids from `_event_map`, clear `_cancelled`, re-`heapify`. -/
def Scheduler.cleanup (s : Scheduler) : Nat × Scheduler :=
  if s.cancelled = ∅ then (0, s)
  else
    let q := s.queue.filter (fun e => e.idx ∉ s.cancelled)
    let removed := s.queue.length - q.length
    (removed,
      { s with
          queue := heapify q,
          cancelled := ∅,
          eventMap := s.eventMap.filter (fun p => p.1 ∉ s.cancelled) })

/-! ## Generic scheduler facts used by several claims -/

/-- Well-formedness of a scheduler state, true of every state reachable
through the public API: queue ids are pairwise distinct and every tracked
id is below `_counter`. -/
def WF (s : Scheduler) : Prop :=
  (s.queue.map Entry.idx).Nodup ∧
  (∀ e ∈ s.queue, e.idx < s.counter) ∧
  (∀ p ∈ s.eventMap, p.1 < s.counter) ∧
  (∀ i ∈ s.cancelled, i < s.counter)

instance (s : Scheduler) : Decidable (WF s) := by
  unfold WF; infer_instance

theorem heappush_nil (e : Entry) : heappush [] e = [e] := by
  unfold heappush siftdown
  rw [siftdownLoop]
  simp

theorem heappush_mem {q : List Entry} {x : Entry} (e : Entry) :
    x ∈ heappush q e ↔ x = e ∨ x ∈ q := by
  rw [(heappush_perm q e).mem_iff]
  simp

/-- On a state with no tombstones, `step` pops exactly the root entry. -/
theorem Scheduler.stepE_empty_cancelled {s : Scheduler} (hq : s.queue ≠ [])
    (hc : s.cancelled = ∅) :
    s.stepE = (some (s.queue.getD 0 default),
      { s with
          queue := (heappop s.queue).2,
          time := (s.queue.getD 0 default).time,
          eventMap := mapErase (s.queue.getD 0 default).idx s.eventMap }) := by
  unfold Scheduler.stepE
  rw [dif_neg hq]
  split
  · next heq =>
    have := heappop_fst hq
    rw [heq] at this
    simp at this
  · next e q heq =>
    have he : e = s.queue.getD 0 default := by
      have := heappop_fst hq
      rw [heq] at this
      simpa using this
    have hq2 : q = (heappop s.queue).2 := by rw [heq]
    rw [if_neg (by simp [hc])]
    rw [he, hq2]

theorem Scheduler.stepE_time_aux :
    ∀ (n : Nat) (s : Scheduler), s.queue.length = n →
      ∀ (e : Entry) (s' : Scheduler), s.stepE = (some e, s') → s'.time = e.time := by
  intro n
  induction n using Nat.strong_induction_on with
  | _ n ih =>
    intro s hn e s' hstep
    subst hn
    unfold Scheduler.stepE at hstep
    by_cases hq : s.queue = []
    · rw [dif_pos hq] at hstep
      simp at hstep
    · rw [dif_neg hq] at hstep
      split at hstep
      · simp at hstep
      · next e0 q heq =>
        have hlen : q.length + 1 = s.queue.length := by
          have h1 : (heappop s.queue).2 = q := by rw [heq]
          rw [← h1]; exact heappop_length hq
        split at hstep
        · exact ih q.length (by omega)
            ⟨s.time, q, s.counter, s.cancelled.erase e0.idx,
              mapErase e0.idx s.eventMap⟩ rfl e s' hstep
        · injection hstep with h1 h2
          injection h1 with h1
          subst h1 h2
          rfl

theorem Scheduler.stepE_time {s : Scheduler} {e : Entry} {s' : Scheduler}
    (h : s.stepE = (some e, s')) : s'.time = e.time :=
  Scheduler.stepE_time_aux s.queue.length s rfl e s' h

/-! ## C6: error contract of `schedule` and `insert_event` -/

/-- **C6.** `schedule` and `insert_event` raise `ValueError` on a negative
numeric or timedelta delay and `TypeError` on an unsupported delay type,
synchronously and with the scheduler state unchanged; on success they
return `(run_at, id)` where `run_at` is the given absolute time, or
`now + delay` for the relative forms, and `id` is the current sequence
counter. -/
theorem schedule_insert_error_contract (s : Scheduler) (ev : Option Event)
    (data : Nat) (e2 : Event) (sc : Option Scope) (sys : Option Entity)
    (v w t : Int) (hv : v < 0) (hw : 0 ≤ w) :
    s.schedule (.secs v) ev data = (.error .valueError, s) ∧
    s.schedule (.td v) ev data = (.error .valueError, s) ∧
    s.insert_event e2 (.secs v) sc sys = (.error .valueError, s) ∧
    s.insert_event e2 (.td v) sc sys = (.error .valueError, s) ∧
    s.schedule .other ev data = (.error .typeError, s) ∧
    s.insert_event e2 .other sc sys = (.error .typeError, s) ∧
    (s.schedule (.dt t) ev data).1 = .ok (t, s.counter) ∧
    (s.insert_event e2 (.dt t) sc sys).1 = .ok (t, s.counter) ∧
    (s.schedule (.secs w) ev data).1 = .ok (s.time + w, s.counter) ∧
    (s.schedule (.td w) ev data).1 = .ok (s.time + w, s.counter) ∧
    (s.insert_event e2 (.secs w) sc sys).1 = .ok (s.time + w, s.counter) ∧
    (s.insert_event e2 (.td w) sc sys).1 = .ok (s.time + w, s.counter) := by
  unfold Scheduler.schedule Scheduler.insert_event
  have hv' : ¬ 0 ≤ v := by omega
  have hw' : ¬ w < 0 := by omega
  refine ⟨?_, ?_, ?_, ?_, ?_, ?_, ?_, ?_, ?_, ?_, ?_, ?_⟩ <;>
    simp [if_pos hv, if_neg hw', pushEntry]

theorem schedule_insert_error_contract_witness :
    ((-1 : Int) < 0 ∧ (0 : Int) ≤ 0) ∧
    ((Scheduler.fresh 7).schedule (.secs (-1)) none 0
        = (.error .valueError, Scheduler.fresh 7) ∧
      ((Scheduler.fresh 7).schedule (.secs 0) none 0).1 = .ok (7, 0)) := by
  refine ⟨⟨by norm_num, le_refl 0⟩, ?_, ?_⟩
  · exact (schedule_insert_error_contract (Scheduler.fresh 7) none 0
      (freshEvent 0) none none (-1) 0 3 (by norm_num) (le_refl 0)).1
  · have h := (schedule_insert_error_contract (Scheduler.fresh 7) none 0
      (freshEvent 0) none none (-1) 0 3 (by norm_num) (le_refl 0)).2.2.2.2.2.2.2.2.1
    simpa using h

/-! ## C2: anchor filtering on an event whose anchor attribute is unset -/

unseal siftdownLoop Scheduler.popLoop in
/-- **C2 (code bug).** `scheduler.py` filters on `event.system`, but
`Event` (`event.py`) declares `entity_anchor` and no `system` field; an
event that was never passed through `insert_event` with a `system`
argument has no such attribute, so a filtered `pop_event` call raises
`AttributeError` instead of skipping the entry and returning the first
match or `None`.  Concretely: schedule one event (payload only), then
`pop_event(system=some entity)` raises; the claim (and the method's own
docstring) say it should return `None`.  The failed call also loses the
scanned entry: the queue is left empty. -/
theorem pop_event_missing_anchor_attribute_raises :
    (((Scheduler.fresh 0).schedule (.secs 5) none 0).2.pop_event
        none (some ⟨0⟩) false).1 = .error .attrError ∧
    (((Scheduler.fresh 0).schedule (.secs 5) none 0).2.pop_event
        none (some ⟨0⟩) false).2.queue = [] := by
  constructor <;> rfl

/-! ## C10: absolute trigger times in the past are accepted -/

/-- **C10.** An absolute trigger time strictly earlier than `now` is
accepted unchanged by `schedule` and `insert_event` (the negative-delay
check applies only to the relative forms), and a `step` that returns such
an entry moves `now` backwards to it. -/
theorem backdated_schedule_accepted (s : Scheduler) (ev : Option Event)
    (data : Nat) (e2 : Event) (sc : Option Scope) (sys : Option Entity)
    (t : Int) (ht : t < s.time) :
    (s.schedule (.dt t) ev data).1 = .ok (t, s.counter) ∧
    (s.insert_event e2 (.dt t) sc sys).1 = .ok (t, s.counter) ∧
    (s.queue = [] → s.cancelled = ∅ →
      ((s.schedule (.dt t) ev data).2.stepE.1
          = some ⟨t, s.counter, ev.getD (freshEvent data)⟩ ∧
        (s.schedule (.dt t) ev data).2.stepE.2.time = t ∧
        (s.schedule (.dt t) ev data).2.stepE.2.time < s.time)) := by
  refine ⟨rfl, ?_, ?_⟩
  · unfold Scheduler.insert_event
    rfl
  · intro hq hc
    have hsched : (s.schedule (.dt t) ev data).2
        = { s with
            queue := heappush s.queue ⟨t, s.counter, ev.getD (freshEvent data)⟩,
            eventMap := mapInsert s.counter (t, ev.getD (freshEvent data)) s.eventMap,
            counter := s.counter + 1 } := by
      unfold Scheduler.schedule pushEntry
      cases ev <;> rfl
    rw [hsched, hq, heappush_nil]
    have hstep := Scheduler.stepE_empty_cancelled
      (s := { s with
          queue := [⟨t, s.counter, ev.getD (freshEvent data)⟩],
          eventMap := mapInsert s.counter (t, ev.getD (freshEvent data)) s.eventMap,
          counter := s.counter + 1 })
      (by simp) (by simpa using hc)
    rw [hstep]
    exact ⟨rfl, rfl, ht⟩

theorem backdated_schedule_accepted_witness :
    ((40 : Int) < (Scheduler.fresh 100).time) ∧
    ((Scheduler.fresh 100).schedule (.dt 40) none 0).1 = .ok (40, 0) ∧
    ((Scheduler.fresh 100).schedule (.dt 40) none 0).2.stepE.2.time = 40 := by
  have h := backdated_schedule_accepted (Scheduler.fresh 100) none 0
    (freshEvent 0) none none 40 (by decide)
  refine ⟨by decide, by simpa using h.1, ?_⟩
  exact (h.2.2 rfl rfl).2.1

/-! ## C1: what `peek_events` actually returns -/

/-- The per-entry condition under which `peek_events` keeps a queue entry:
not tombstoned, scope filter passed (the anchor/`system` filter is
treated separately because reading it can raise). -/
def peekPred (c : Finset Nat) (scope : Option Scope) (incl : Bool)
    (e : Entry) : Bool :=
  !(decide (e.idx ∈ c)) && matchesScope scope incl e.ev

theorem peekLoop_no_limit (c : Finset Nat) (scope : Option Scope)
    (incl : Bool) :
    ∀ (queue acc : List Entry),
      Scheduler.peekLoop c scope none none incl queue acc
        = .ok (acc ++ queue.filter (peekPred c scope incl)) := by
  intro queue
  induction queue with
  | nil => intro acc; simp [Scheduler.peekLoop]
  | cons e rest ih =>
    intro acc
    unfold Scheduler.peekLoop
    by_cases hcan : e.idx ∈ c
    · rw [if_pos hcan, ih]
      have : peekPred c scope incl e = false := by
        simp [peekPred, hcan]
      simp [List.filter_cons, this]
    · rw [if_neg hcan]
      by_cases hsc : matchesScope scope incl e.ev
      · rw [if_neg (by simp [hsc])]
        show Scheduler.peekLoop c scope none none incl rest (acc ++ [e])
          = _
        rw [ih]
        have : peekPred c scope incl e = true := by
          simp [peekPred, hcan, hsc]
        simp [List.filter_cons, this]
      · rw [if_pos (by simp [Bool.not_eq_true] at hsc ⊢; exact hsc), ih]
        have : peekPred c scope incl e = false := by
          simp [peekPred, hcan]
          simp [Bool.not_eq_true] at hsc
          exact hsc
        simp [List.filter_cons, this]

theorem peekLoop_with_limit (c : Finset Nat) (scope : Option Scope)
    (incl : Bool) (n : Nat) :
    ∀ (queue acc : List Entry), (acc.length < n ∨ acc = []) →
      Scheduler.peekLoop c scope none (some n) incl queue acc
        = .ok (acc ++
            (queue.filter (peekPred c scope incl)).take (max (n - acc.length) 1)) := by
  intro queue
  induction queue with
  | nil => intro acc _; simp [Scheduler.peekLoop]
  | cons e rest ih =>
    intro acc hacc
    unfold Scheduler.peekLoop
    by_cases hcan : e.idx ∈ c
    · rw [if_pos hcan, ih _ hacc]
      have : peekPred c scope incl e = false := by simp [peekPred, hcan]
      simp [List.filter_cons, this]
    · rw [if_neg hcan]
      by_cases hsc : matchesScope scope incl e.ev
      · rw [if_neg (by simp [hsc])]
        have hpe : peekPred c scope incl e = true := by
          simp [peekPred, hcan, hsc]
        show (if n ≤ (acc ++ [e]).length then Except.ok (acc ++ [e])
            else Scheduler.peekLoop c scope none (some n) incl rest (acc ++ [e])) = _
        by_cases hlim : n ≤ (acc ++ [e]).length
        · rw [if_pos hlim]
          simp only [List.length_append, List.length_cons, List.length_nil] at hlim
          have hmax : max (n - acc.length) 1 = 1 := by
            rcases hacc with h | h
            · omega
            · subst h; simp at hlim ⊢; omega
          rw [hmax]
          simp [List.filter_cons, hpe]
        · rw [if_neg hlim]
          simp only [List.length_append, List.length_cons, List.length_nil] at hlim
          have hlt : (acc ++ [e]).length < n := by simp; omega
          rw [ih _ (Or.inl hlt)]
          simp only [List.length_append, List.length_cons, List.length_nil]
          obtain ⟨k, hk⟩ : ∃ k, n - acc.length = k + 1 :=
            ⟨n - acc.length - 1, by omega⟩
          have h1 : max (n - (acc.length + 1)) 1 = k := by omega
          have h2 : max (n - acc.length) 1 = k + 1 := by omega
          rw [h1, h2]
          simp [List.filter_cons, hpe, List.take_succ_cons]
      · rw [if_pos (by simp [Bool.not_eq_true] at hsc ⊢; exact hsc), ih _ hacc]
        have : peekPred c scope incl e = false := by
          simp [peekPred, hcan]
          simp [Bool.not_eq_true] at hsc
          exact hsc
        simp [List.filter_cons, this]

/-- **C1 (amended).** With the anchor filter unset, `peek_events` reads no
state it could modify (it is a pure function of the scheduler value),
includes no tombstoned entry, and returns exactly the live entries
matching the scope filter — but in the physical heap-array order of
`_queue`, not in ascending `(trigger_time, sequence)` order; `limit`
truncates that scan to its first `max(limit, 1)` hits (a `limit` of 0
still returns the first hit, because the bound is only tested after an
append). -/
theorem peek_events_heap_order_spec (s : Scheduler) (scope : Option Scope)
    (limit : Option Nat) (incl : Bool) :
    s.peek_eventsE scope none limit incl
      = .ok (match limit with
        | none => s.queue.filter (peekPred s.cancelled scope incl)
        | some n =>
          (s.queue.filter (peekPred s.cancelled scope incl)).take (max n 1)) := by
  unfold Scheduler.peek_eventsE
  match limit with
  | none => rw [peekLoop_no_limit]; simp
  | some n =>
    rw [peekLoop_with_limit _ _ _ _ _ _ (Or.inr rfl)]
    simp

unseal siftdownLoop in
/-- **C1 (counterexample).** Scheduling at `now+1`, `now+3`, `now+2`
leaves the heap array physically in the order `[1, 3, 2]`, and
`peek_events()` (no filter, no limit) returns exactly that non-ascending
order, contradicting the claimed ascending `(trigger_time, sequence)`
order. -/
theorem peek_events_not_chronological :
    ((((Scheduler.fresh 0).schedule (.secs 1) none 0).2.schedule
        (.secs 3) none 0).2.schedule (.secs 2) none 0).2.peek_events
        none none none true
      = .ok [(1, freshEvent 0), (3, freshEvent 0), (2, freshEvent 0)] ∧
    ¬ List.Chain' (· ≤ ·) [(1 : Int), 3, 2] := by
  exact ⟨rfl, by norm_num [List.chain'_cons, List.chain'_singleton]⟩

/-! ## C3: two scopes with the same full path -/

theorem scopeEq_congr_left {a b : Scope} (h : a.full_path = b.full_path)
    (x : Scope) : scopeEq x a = scopeEq x b := by
  unfold scopeEq
  rw [h]

theorem matchesScope_exact_congr {a b : Scope}
    (h : a.full_path = b.full_path) (ev : Event) :
    matchesScope (some a) false ev = matchesScope (some b) false ev := by
  unfold matchesScope
  cases ev.scope with
  | none => rfl
  | some es => simp only [if_neg (by simp : ¬ (false = true))]
               exact scopeEq_congr_left h es

theorem peekLoop_exact_congr {a b : Scope} (h : a.full_path = b.full_path)
    (c : Finset Nat) (sys : Option Entity) (lim : Option Nat) :
    ∀ (queue acc : List Entry),
      Scheduler.peekLoop c (some a) sys lim false queue acc
        = Scheduler.peekLoop c (some b) sys lim false queue acc := by
  intro queue
  induction queue with
  | nil => intro acc; rfl
  | cons e rest ih =>
    intro acc
    unfold Scheduler.peekLoop
    rw [matchesScope_exact_congr h]
    by_cases hcan : e.idx ∈ c
    · rw [if_pos hcan, if_pos hcan, ih]
    · rw [if_neg hcan, if_neg hcan]
      by_cases hsc : !matchesScope (some b) false e.ev
      · rw [if_pos hsc, if_pos hsc, ih]
      · rw [if_neg hsc, if_neg hsc]
        cases matchesSystem sys e.ev with
        | error err => rfl
        | ok ms =>
          by_cases hms : !ms
          · simp only [if_pos hms, ih]
          · simp only [if_neg hms]
            cases lim with
            | none => dsimp only; exact ih _
            | some n =>
              dsimp only
              by_cases hl : n ≤ (acc ++ [e]).length
              · rw [if_pos hl, if_pos hl]
              · rw [if_neg hl, if_neg hl, ih]

theorem getLoop_exact_congr {a b : Scope} (h : a.full_path = b.full_path)
    (c : Finset Nat) (sys : Option Entity) :
    ∀ (queue acc : List Entry),
      Scheduler.getLoop c (some a) sys false queue acc
        = Scheduler.getLoop c (some b) sys false queue acc := by
  intro queue
  induction queue with
  | nil => intro acc; rfl
  | cons e rest ih =>
    intro acc
    unfold Scheduler.getLoop
    rw [matchesScope_exact_congr h]
    by_cases hcan : e.idx ∈ c
    · rw [if_pos hcan, if_pos hcan, ih]
    · rw [if_neg hcan, if_neg hcan]
      by_cases hsc : !matchesScope (some b) false e.ev
      · rw [if_pos hsc, if_pos hsc, ih]
      · rw [if_neg hsc, if_neg hsc]
        cases matchesSystem sys e.ev with
        | error err => rfl
        | ok ms =>
          by_cases hms : !ms
          · simp only [if_pos hms, ih]
          · simp only [if_neg hms, ih]

theorem popLoop_exact_congr {a b : Scope} (h : a.full_path = b.full_path)
    (sys : Option Entity) :
    ∀ (n : Nat) (s : Scheduler) (temp : List Entry), s.queue.length = n →
      s.popLoop temp (some a) sys false = s.popLoop temp (some b) sys false := by
  intro n
  induction n using Nat.strong_induction_on with
  | _ n ih =>
    intro s temp hn
    subst hn
    unfold Scheduler.popLoop
    by_cases hq : s.queue = []
    · rw [dif_pos hq, dif_pos hq]
    · rw [dif_neg hq, dif_neg hq]
      split
      · rfl
      · next e q heq =>
        have hlen : q.length + 1 = s.queue.length := by
          have h1 : (heappop s.queue).2 = q := by rw [heq]
          rw [← h1]; exact heappop_length hq
        by_cases hcan : e.idx ∈ s.cancelled
        · rw [if_pos hcan, if_pos hcan]
          exact ih q.length (by omega) _ temp rfl
        · rw [if_neg hcan, if_neg hcan]
          rw [matchesScope_exact_congr h]
          cases matchesSystem sys e.ev with
          | error err => rfl
          | ok ms =>
            dsimp only
            by_cases hm : matchesScope (some b) false e.ev && ms
            · rw [if_pos hm, if_pos hm]
            · rw [if_neg hm, if_neg hm]
              exact ih q.length (by omega) _ (temp ++ [e]) rfl

/-- **C3 (amended).** Two `Scope` values with the same full path are equal
and hash alike (both `__eq__` and `__hash__` are functions of the full
path), and every scheduler filtering operation invoked with
`include_descendants=False` returns the same result whichever of the two
is passed; with `include_descendants=True` they are *not* interchangeable,
because `is_ancestor_of` walks parent references by object identity (see
the counterexample). -/
theorem same_path_scopes_exact_filtering (a b : Scope)
    (h : a.full_path = b.full_path) :
    scopeEq a b = true ∧
    (∀ hashfn : String → Int, hashfn a.full_path = hashfn b.full_path) ∧
    (∀ ev : Event, matchesScope (some a) false ev
        = matchesScope (some b) false ev) ∧
    (∀ (s : Scheduler) (sys : Option Entity) (lim : Option Nat),
      s.peek_eventsE (some a) sys lim false
        = s.peek_eventsE (some b) sys lim false) ∧
    (∀ (s : Scheduler) (sys : Option Entity),
      s.get_eventsE (some a) sys false = s.get_eventsE (some b) sys false) ∧
    (∀ (s : Scheduler) (sys : Option Entity),
      s.pop_eventE (some a) sys false = s.pop_eventE (some b) sys false) ∧
    (∀ (s : Scheduler) (sys : Option Entity),
      s.delete_events (some a) sys false = s.delete_events (some b) sys false) := by
  refine ⟨by simp [scopeEq, h], fun hashfn => by rw [h],
    matchesScope_exact_congr h, ?_, ?_, ?_, ?_⟩
  · intro s sys lim
    unfold Scheduler.peek_eventsE
    exact peekLoop_exact_congr h _ _ _ _ _
  · intro s sys
    unfold Scheduler.get_eventsE
    exact getLoop_exact_congr h _ _ _ _
  · intro s sys
    unfold Scheduler.pop_eventE
    rw [popLoop_exact_congr h sys s.queue.length s [] rfl]
  · intro s sys
    unfold Scheduler.delete_events
    rw [if_neg (by simp), if_neg (by simp)]
    unfold Scheduler.get_eventsE
    rw [getLoop_exact_congr h _ _ _ _]

theorem same_path_scopes_exact_filtering_witness :
    (Scope.root 0 "A").full_path = (Scope.root 1 "A").full_path ∧
    scopeEq (Scope.root 0 "A") (Scope.root 1 "A") = true := by
  refine ⟨rfl, ?_⟩
  exact (same_path_scopes_exact_filtering (.root 0 "A") (.root 1 "A") rfl).1

unseal siftdownLoop in
/-- **C3 (counterexample).** Two independently constructed root scopes
named `A` have the same full path (so they are `==`-equal), yet with
`include_descendants=True` a `peek_events` filter finds an event tagged
with a child of one of them only when given *that* object:
`is_ancestor_of` compares parents by object identity (`is`), so the claim
that every filtering operation (including descendant matching) returns the
same result for both is false. -/
theorem same_path_scopes_not_interchangeable :
    (Scope.root 0 "A").full_path = (Scope.root 1 "A").full_path ∧
    scopeEq (Scope.root 0 "A") (Scope.root 1 "A") = true ∧
    ((Scheduler.fresh 0).insert_event
        { data := 0, timespan := 0,
          scope := some (.child 2 "B" (.root 1 "A")),
          entity_anchor := none, systemAttr := none }
        (.secs 1) none none).2.peek_eventsE
        (some (.root 1 "A")) none none true
      = .ok [⟨1, 0,
          { data := 0, timespan := 0,
            scope := some (.child 2 "B" (.root 1 "A")),
            entity_anchor := none, systemAttr := none }⟩] ∧
    ((Scheduler.fresh 0).insert_event
        { data := 0, timespan := 0,
          scope := some (.child 2 "B" (.root 1 "A")),
          entity_anchor := none, systemAttr := none }
        (.secs 1) none none).2.peek_eventsE
        (some (.root 0 "A")) none none true
      = .ok [] := by
  exact ⟨rfl, rfl, rfl, rfl⟩

/-! ## C5: the time bound of `run(until)` -/

theorem runLoop_no_tombstones_aux :
    ∀ (n : Nat) (s : Scheduler) (u : Int), s.queue.length = n →
      s.cancelled = ∅ →
      (∀ e ∈ (s.runLoop (some u)).1, e.time ≤ u) ∧
      (s.runLoop (some u)).2.cancelled = ∅ := by
  intro n
  induction n using Nat.strong_induction_on with
  | _ n ih =>
    intro s u hn hc
    subst hn
    unfold Scheduler.runLoop
    by_cases hq : s.queue = []
    · rw [dif_pos hq]
      exact ⟨by intro e he; simp at he, hc⟩
    · rw [dif_neg hq]
      dsimp only
      by_cases hu : u < (s.queue.getD 0 default).time
      · rw [if_pos hu]
        exact ⟨by intro e he; simp at he, hc⟩
      · rw [if_neg hu]
        have hstep := Scheduler.stepE_empty_cancelled hq hc
        have hq1 : (s.stepE).2.queue.length < s.queue.length :=
          Scheduler.stepE_queue_lt s hq
        have hrec := ih (s.stepE).2.queue.length hq1 (s.stepE).2 u rfl
          (by rw [hstep]; exact hc)
        constructor
        · intro e he
          simp only [List.mem_append] at he
          rcases he with he | he
          · have h1 : (s.stepE).1.toList = [s.queue.getD 0 default] := by
              rw [hstep]
              rfl
            rw [h1, List.mem_singleton] at he
            subst he
            omega
          · exact hrec.1 e he
        · exact hrec.2

/-- **C5 (amended).** When the cancellation set is empty, `run(until)`
consumes only entries whose trigger time is at most `until` (each loop
iteration tests the physical queue head, which with no tombstones is
exactly the entry `step` pops); and unconditionally, if `now` is still
before `until` when the loop stops, `run` advances `now` to `until`, even
with no events consumed.  With tombstones present the first part fails —
see the counterexample. -/
theorem run_until_bound_no_tombstones (s : Scheduler) (u : Int)
    (hc : s.cancelled = ∅) :
    (∀ e ∈ (s.runLoop (some u)).1, e.time ≤ u) ∧
    u ≤ (s.run (some u)).time ∧
    ((s.runLoop (some u)).2.time < u → (s.run (some u)).time = u) := by
  refine ⟨(runLoop_no_tombstones_aux s.queue.length s u rfl hc).1, ?_, ?_⟩
  · unfold Scheduler.run
    dsimp only
    by_cases ht : (s.runLoop (some u)).2.time < u
    · rw [if_pos ht]
    · rw [if_neg ht]
      omega
  · intro ht
    unfold Scheduler.run
    dsimp only
    rw [if_pos ht]

theorem run_until_bound_no_tombstones_witness :
    (Scheduler.fresh 0).cancelled = ∅ ∧
    (0 : Int) ≤ ((Scheduler.fresh 0).run (some 0)).time := by
  exact ⟨rfl, (run_until_bound_no_tombstones (Scheduler.fresh 0) 0 rfl).2.1⟩

unseal siftdownLoop siftupLoop Scheduler.stepE Scheduler.runLoop in
/-- **C5 (counterexample).** Schedule events at `now+1` (id 0) and
`now+10` (id 1), cancel id 0 — a tombstone at the heap root — then
`run(until=now+5)`: the loop guard sees the tombstone's time `1 ≤ 5` and
calls `step`, which discards the tombstone and *consumes the live entry at
time 10 > until*, leaving `now = 10`.  This contradicts the claim that
`run(until)` consumes only entries with trigger time ≤ `until`. -/
theorem run_consumes_past_until :
    (((((Scheduler.fresh 0).schedule (.secs 1) none 0).2.schedule
        (.secs 10) none 0).2.cancel_event 0).1 = true) ∧
    ((((((Scheduler.fresh 0).schedule (.secs 1) none 0).2.schedule
        (.secs 10) none 0).2.cancel_event 0).2.runLoop (some 5)).1.map
          Entry.time = [10]) ∧
    ((((((Scheduler.fresh 0).schedule (.secs 1) none 0).2.schedule
        (.secs 10) none 0).2.cancel_event 0).2.run (some 5)).time = 10) := by
  exact ⟨rfl, rfl, rfl⟩

/-! ## C8: `reschedule_event` -/

theorem mapFind_eq_none {k : Nat} {m : EMap} :
    mapFind k m = none ↔ ∀ p ∈ m, p.1 ≠ k := by
  unfold mapFind
  simp [List.find?_eq_none]

/-- **C8.** `reschedule_event(id, delta)` returns `None` with the state
unchanged when `id` is unknown or already cancelled; otherwise it returns
`(old_run_at + delta, new_id)` (delta may be negative — no lower bound
against `now` is enforced, `delta` ranges over all of `Int`), marks the
old id cancelled, reinserts the *same* event object at the new time under
the freshly minted id `_counter`, and (in a well-formed state) that new id
differs from every previously issued id — everything in the queue, the
lookup index, the cancellation set, and `id` itself. -/
theorem reschedule_event_spec (s : Scheduler) (id : Nat) (v : Int) :
    (id ∈ s.cancelled →
      s.reschedule_event id (.secs v) = (.ok none, s) ∧
      s.reschedule_event id (.td v) = (.ok none, s)) ∧
    (mapFind id s.eventMap = none →
      s.reschedule_event id (.secs v) = (.ok none, s) ∧
      s.reschedule_event id (.td v) = (.ok none, s)) ∧
    (∀ old ev, id ∉ s.cancelled → mapFind id s.eventMap = some (old, ev) →
      ∀ d ∈ [RDelta.secs v, RDelta.td v],
        (s.reschedule_event id d).1 = .ok (some (old + v, s.counter)) ∧
        (s.reschedule_event id d).2.cancelled = insert id s.cancelled ∧
        (s.reschedule_event id d).2.queue.Perm
          (⟨old + v, s.counter, ev⟩ :: s.queue) ∧
        (s.reschedule_event id d).2.counter = s.counter + 1 ∧
        (s.reschedule_event id d).2.eventMap
          = mapInsert s.counter (old + v, ev) s.eventMap ∧
        (WF s →
          (∀ e ∈ s.queue, e.idx ≠ s.counter) ∧
          (∀ p ∈ s.eventMap, p.1 ≠ s.counter) ∧
          id ≠ s.counter ∧
          (∀ i ∈ s.cancelled, i ≠ s.counter))) := by
  refine ⟨?_, ?_, ?_⟩
  · intro hc
    unfold Scheduler.reschedule_event
    simp only [if_pos hc]
    exact ⟨trivial, trivial⟩
  · intro hm
    unfold Scheduler.reschedule_event
    by_cases hc : id ∈ s.cancelled
    · simp only [if_pos hc]; exact ⟨trivial, trivial⟩
    · simp only [if_neg hc, hm]
      exact ⟨trivial, trivial⟩
  · intro old ev hc hm d hd
    have hfound : ∀ w : Int,
        s.reschedule_event id (.secs w) = (.ok (some (old + w, s.counter)),
          { s with
              cancelled := insert id s.cancelled,
              queue := heappush s.queue ⟨old + w, s.counter, ev⟩,
              eventMap := mapInsert s.counter (old + w, ev) s.eventMap,
              counter := s.counter + 1 }) := by
      intro w
      unfold Scheduler.reschedule_event
      rw [if_neg hc, hm]
    have hfound2 : ∀ w : Int,
        s.reschedule_event id (.td w) = (.ok (some (old + w, s.counter)),
          { s with
              cancelled := insert id s.cancelled,
              queue := heappush s.queue ⟨old + w, s.counter, ev⟩,
              eventMap := mapInsert s.counter (old + w, ev) s.eventMap,
              counter := s.counter + 1 }) := by
      intro w
      unfold Scheduler.reschedule_event
      rw [if_neg hc, hm]
    have hwf : WF s →
        (∀ e ∈ s.queue, e.idx ≠ s.counter) ∧
        (∀ p ∈ s.eventMap, p.1 ≠ s.counter) ∧
        id ≠ s.counter ∧
        (∀ i ∈ s.cancelled, i ≠ s.counter) := by
      intro hWF
      obtain ⟨h1, h2, h3, h4⟩ := hWF
      have hid : id < s.counter := by
        have : ∃ p ∈ s.eventMap, p.1 = id := by
          unfold mapFind at hm
          rcases h5 : s.eventMap.find? (fun p => p.1 = id) with _ | p
          · rw [h5] at hm; simp at hm
          · refine ⟨p, List.mem_of_find?_eq_some h5, ?_⟩
            have := List.find?_some h5
            simpa using this
        obtain ⟨p, hp, hpk⟩ := this
        have := h3 p hp
        omega
      exact ⟨fun e he => by have := h2 e he; omega,
        fun p hp => by have := h3 p hp; omega,
        by omega,
        fun i hi => by have := h4 i hi; omega⟩
    simp only [List.mem_cons, List.mem_singleton] at hd
    rcases hd with hd | hd | hd
    · subst hd
      rw [hfound v]
      exact ⟨rfl, rfl, heappush_perm _ _, rfl, rfl, hwf⟩
    · subst hd
      rw [hfound2 v]
      exact ⟨rfl, rfl, heappush_perm _ _, rfl, rfl, hwf⟩
    · exact absurd hd (by simp)

unseal siftdownLoop in
theorem reschedule_event_spec_witness :
    ((0 : Nat) ∉ (((Scheduler.fresh 0).schedule (.secs 1) none 0).2).cancelled ∧
      mapFind 0 (((Scheduler.fresh 0).schedule (.secs 1) none 0).2).eventMap
        = some (1, freshEvent 0)) ∧
    ((((Scheduler.fresh 0).schedule (.secs 1) none 0).2.reschedule_event 0
        (.secs (-3))).1 = .ok (some (-2, 1))) := by
  refine ⟨⟨by decide, rfl⟩, ?_⟩
  have h := (reschedule_event_spec (((Scheduler.fresh 0).schedule
      (.secs 1) none 0).2) 0 (-3)).2.2 1 (freshEvent 0) (by decide) rfl
      (RDelta.secs (-3)) (by simp)
  have h1 := h.1
  norm_num at h1 ⊢
  exact h1

/-! ## C9: `delete_events` -/

/-- The value of the `event.system == system` comparison when the read
does not raise. -/
def systemMatchB (system : Option Entity) (ev : Event) : Bool :=
  match system with
  | none => true
  | some sys => ev.systemAttr == some sys

/-- The per-entry condition under which `get_events` (and hence
`delete_events`) keeps an entry, assuming the anchor attribute is present
wherever it is read. -/
def liveMatch (c : Finset Nat) (scope : Option Scope)
    (system : Option Entity) (incl : Bool) (e : Entry) : Bool :=
  !(decide (e.idx ∈ c)) && matchesScope scope incl e.ev &&
    systemMatchB system e.ev

theorem getLoop_ok (c : Finset Nat) (scope : Option Scope)
    (system : Option Entity) (incl : Bool) :
    ∀ (queue acc : List Entry),
      (system = none ∨ ∀ e ∈ queue, (e.ev.systemAttr).isSome = true) →
      Scheduler.getLoop c scope system incl queue acc
        = .ok (acc ++ queue.filter (liveMatch c scope system incl)) := by
  intro queue
  induction queue with
  | nil => intro acc _; simp [Scheduler.getLoop]
  | cons e rest ih =>
    intro acc hsys
    have hsys' : system = none ∨ ∀ x ∈ rest, (x.ev.systemAttr).isSome = true := by
      rcases hsys with h | h
      · exact Or.inl h
      · exact Or.inr fun x hx => h x (List.mem_cons_of_mem e hx)
    unfold Scheduler.getLoop
    by_cases hcan : e.idx ∈ c
    · rw [if_pos hcan, ih _ hsys']
      have hpe : liveMatch c scope system incl e = false := by
        simp [liveMatch, hcan]
      simp [List.filter_cons, hpe]
    · rw [if_neg hcan]
      by_cases hsc : matchesScope scope incl e.ev
      · rw [if_neg (by simp [hsc])]
        rcases hms : matchesSystem system e.ev with err | ms
        · exfalso
          unfold matchesSystem at hms
          rcases hsys with h | h
          · rw [h] at hms; simp at hms
          · have := h e (List.mem_cons_self e rest)
            cases hsattr : e.ev.systemAttr with
            | none => rw [hsattr] at this; simp at this
            | some a =>
              cases hs2 : system with
              | none => rw [hs2] at hms; simp at hms
              | some sys => rw [hs2, hsattr] at hms; simp at hms
        · dsimp only
          have hmval : systemMatchB system e.ev = ms := by
            unfold matchesSystem at hms
            unfold systemMatchB
            cases hs2 : system with
            | none => rw [hs2] at hms; simp at hms; simp [hms]
            | some sys =>
              rw [hs2] at hms
              cases hsattr : e.ev.systemAttr with
              | none => rw [hsattr] at hms; simp at hms
              | some a =>
                rw [hsattr] at hms
                simp at hms
                subst hms
                by_cases hae : a = sys
                · simp [hae]
                · simp [hae]
          by_cases hb : ms
          · rw [if_neg (by simp [hb]), ih _ hsys']
            have hpe : liveMatch c scope system incl e = true := by
              simp [liveMatch, hcan, hsc, hmval, hb]
            simp [List.filter_cons, hpe]
          · rw [if_pos (by simp [Bool.not_eq_true] at hb ⊢; exact hb), ih _ hsys']
            have hpe : liveMatch c scope system incl e = false := by
              simp only [Bool.not_eq_true] at hb
              simp [liveMatch, hmval, hb]
            simp [List.filter_cons, hpe]
      · rw [if_pos (by simp [Bool.not_eq_true] at hsc ⊢; exact hsc), ih _ hsys']
        have hpe : liveMatch c scope system incl e = false := by
          simp only [Bool.not_eq_true] at hsc
          simp [liveMatch, hsc]
        simp [List.filter_cons, hpe]

theorem deleteFold (l : List Entry) :
    ∀ (k : Nat) (c : Finset Nat),
      (∀ e ∈ l, e.idx ∉ c) → (l.map Entry.idx).Nodup →
      l.foldl (fun (p : Nat × Finset Nat) e =>
          if e.idx ∈ p.2 then p else (p.1 + 1, insert e.idx p.2)) (k, c)
        = (k + l.length, c ∪ (l.map Entry.idx).toFinset) := by
  induction l with
  | nil => intro k c _ _; simp
  | cons e rest ih =>
    intro k c hnc hnd
    simp only [List.foldl_cons]
    rw [if_neg (hnc e (List.mem_cons_self e rest))]
    rw [ih (k + 1) (insert e.idx c) ?_ ?_]
    · simp only [List.length_cons, List.map_cons, List.toFinset_cons]
      rw [Prod.mk.injEq]
      refine ⟨by omega, ?_⟩
      ext x
      simp [Finset.mem_insert, Finset.mem_union]
    · intro x hx
      simp only [Finset.mem_insert, not_or]
      refine ⟨?_, hnc x (List.mem_cons_of_mem e hx)⟩
      simp only [List.map_cons, List.nodup_cons] at hnd
      intro hcon
      exact hnd.1 (hcon ▸ List.mem_map_of_mem Entry.idx hx)
    · simp only [List.map_cons, List.nodup_cons] at hnd
      exact hnd.2

/-- **C9 (amended).** `delete_events` fails with `ValueError` when neither
a scope nor an anchor filter is given, with the state unchanged.
Otherwise, *provided* the anchor filter is unset or every queued event
carries the anchor attribute (else the lookup raises `AttributeError` —
see the counterexample) and queue ids are distinct (true of every
API-reachable state), it cancels exactly the live entries matching the
filter and returns their number — every one of them newly cancelled. -/
theorem delete_events_spec (s : Scheduler) (scope : Option Scope)
    (system : Option Entity) (incl : Bool) :
    (scope = none → system = none →
      s.delete_events scope system incl = (.error .valueError, s)) ∧
    (¬ (scope = none ∧ system = none) →
      (system = none ∨ ∀ e ∈ s.queue, (e.ev.systemAttr).isSome = true) →
      (s.queue.map Entry.idx).Nodup →
      s.delete_events scope system incl
        = (.ok ((sortQueue s.queue).filter
              (liveMatch s.cancelled scope system incl)).length,
          { s with cancelled := s.cancelled ∪
              (((sortQueue s.queue).filter
                (liveMatch s.cancelled scope system incl)).map
                  Entry.idx).toFinset })) := by
  constructor
  · intro h1 h2
    unfold Scheduler.delete_events
    rw [if_pos ⟨h1, h2⟩]
  · intro hf hsys hnd
    unfold Scheduler.delete_events
    rw [if_neg hf]
    have hperm : (sortQueue s.queue).Perm s.queue := by
      unfold sortQueue
      exact List.mergeSort_perm s.queue _
    have hsys2 : system = none ∨
        ∀ e ∈ sortQueue s.queue, (e.ev.systemAttr).isSome = true := by
      rcases hsys with h | h
      · exact Or.inl h
      · exact Or.inr fun e he => h e (hperm.mem_iff.mp he)
    unfold Scheduler.get_eventsE
    rw [getLoop_ok _ _ _ _ _ _ hsys2]
    dsimp only
    rw [List.nil_append]
    set m := (sortQueue s.queue).filter
      (liveMatch s.cancelled scope system incl) with hm
    have hnc : ∀ e ∈ m, e.idx ∉ s.cancelled := by
      intro e he
      rw [hm, List.mem_filter] at he
      have := he.2
      simp only [liveMatch, Bool.and_eq_true, Bool.not_eq_true',
        decide_eq_false_iff_not] at this
      exact this.1.1
    have hndm : (m.map Entry.idx).Nodup := by
      have hsub : m.Sublist (sortQueue s.queue) := List.filter_sublist _
      have hnds : ((sortQueue s.queue).map Entry.idx).Nodup :=
        (hperm.map Entry.idx).nodup_iff.mpr hnd
      exact ((hsub.map Entry.idx).nodup hnds)
    rw [deleteFold m 0 s.cancelled hnc hndm]
    simp

unseal siftdownLoop List.mergeSort in
/-- **C9 (counterexample).** With an anchor (`system`) filter and a queued
event whose anchor attribute was never set, `delete_events` raises
`AttributeError` (through `get_events` reading `event.system`) instead of
returning the count of newly cancelled entries, so the claim as stated
fails without the attribute proviso. -/
theorem delete_events_missing_anchor_attribute_raises :
    (((Scheduler.fresh 0).schedule (.secs 5) none 0).2.delete_events
        none (some ⟨0⟩) true).1 = .error .attrError ∧
    ∀ n : Nat, (((Scheduler.fresh 0).schedule (.secs 5) none 0).2.delete_events
        none (some ⟨0⟩) true).1 ≠ .ok n := by
  constructor
  · rfl
  · intro n
    intro hcon
    have : Except.error PyErr.attrError = Except.ok n := by
      rw [← hcon]
      rfl
    simp at this

unseal List.mergeSort in
theorem delete_events_spec_witness :
    (¬ ((some (Scope.root 0 "A") : Option Scope) = none ∧
        (none : Option Entity) = none)) ∧
    ((Scheduler.fresh 0).delete_events (some (.root 0 "A")) none true).1
      = .ok 0 := by
  constructor
  · simp
  · have h := (delete_events_spec (Scheduler.fresh 0)
      (some (.root 0 "A")) none true).2 (by simp) (Or.inl rfl) (by decide)
    rw [h]
    rfl

/-! ## C4: chronological order and FIFO tie-break of `step` -/

/-- An insertion call: `schedule(delay, event?, **data)` or
`insert_event(event, trigger_time, scope=…, system=…)`. -/
inductive InsOp where
  | sched (d : Delay) (ev : Option Event) (data : Nat)
  | ins (ev : Event) (d : Delay) (sc : Option Scope) (sys : Option Entity)

/-- The state effect of one insertion call (a failed call leaves the
scheduler unchanged). -/
def Scheduler.execIns (s : Scheduler) : InsOp → Scheduler
  | .sched d ev data => (s.schedule d ev data).2
  | .ins ev d sc sys => (s.insert_event ev d sc sys).2

/-- A scheduler built from a fresh one by a sequence of
`schedule`/`insert_event` calls. -/
def buildSched (t0 : Int) (ops : List InsOp) : Scheduler :=
  ops.foldl Scheduler.execIns (Scheduler.fresh t0)

/-- The trace of successive `step()` calls: each returned entry paired
with the value of `now` right after that step; stops at the first `None`. -/
def Scheduler.stepsTrace (s : Scheduler) : Nat → List (Entry × Int)
  | 0 => []
  | n + 1 =>
    match s.stepE with
    | (none, _) => []
    | (some e, s') => (e, s'.time) :: s'.stepsTrace n

/-- Invariant of schedulers built by insertions only: the queue is a
Python heap with pairwise-distinct sequence ids bounded by the counter,
and nothing has been cancelled. -/
def C4Inv (s : Scheduler) : Prop :=
  IsHeap s.queue ∧ (s.queue.map Entry.idx).Nodup ∧
  (∀ e ∈ s.queue, e.idx < s.counter) ∧ s.cancelled = ∅

theorem C4Inv_pushEntry {s : Scheduler} (h : C4Inv s) (t : Int) (ev : Event) :
    C4Inv (pushEntry s t ev).2 := by
  obtain ⟨hh, hnd, hb, hc⟩ := h
  unfold pushEntry C4Inv
  dsimp only
  refine ⟨heappush_isHeap hh _, ?_, ?_, hc⟩
  · have hperm := (heappush_perm s.queue ⟨t, s.counter, ev⟩).map Entry.idx
    rw [hperm.nodup_iff]
    simp only [List.map_cons]
    rw [List.nodup_cons]
    refine ⟨?_, hnd⟩
    intro hcon
    obtain ⟨e, he, heq⟩ := List.mem_map.mp hcon
    have := hb e he
    omega
  · intro e he
    rw [heappush_mem] at he
    rcases he with he | he
    · subst he; simp
    · have := hb e he; omega

theorem schedule_snd_cases (s : Scheduler) (d : Delay) (ev : Option Event)
    (data : Nat) :
    (s.schedule d ev data).2 = s ∨
    ∃ t' ev', (s.schedule d ev data).2 = (pushEntry s t' ev').2 := by
  unfold Scheduler.schedule
  cases d with
  | dt t => right; exact ⟨t, _, rfl⟩
  | secs v =>
    dsimp only
    by_cases hv : v < 0
    · left; rw [if_pos hv]
    · right; rw [if_neg hv]; exact ⟨s.time + v, _, rfl⟩
  | td v =>
    dsimp only
    by_cases hv : v < 0
    · left; rw [if_pos hv]
    · right; rw [if_neg hv]; exact ⟨s.time + v, _, rfl⟩
  | other => left; rfl

theorem insert_event_snd_cases (s : Scheduler) (ev : Event) (d : Delay)
    (sc : Option Scope) (sys : Option Entity) :
    (s.insert_event ev d sc sys).2 = s ∨
    ∃ t' ev', (s.insert_event ev d sc sys).2 = (pushEntry s t' ev').2 := by
  unfold Scheduler.insert_event
  cases d with
  | dt t => right; exact ⟨t, _, rfl⟩
  | secs v =>
    dsimp only
    by_cases hv : v < 0
    · left; rw [if_pos hv]
    · right; rw [if_neg hv]; exact ⟨s.time + v, _, rfl⟩
  | td v =>
    dsimp only
    by_cases hv : v < 0
    · left; rw [if_pos hv]
    · right; rw [if_neg hv]; exact ⟨s.time + v, _, rfl⟩
  | other => left; rfl

theorem C4Inv_execIns {s : Scheduler} (h : C4Inv s) (op : InsOp) :
    C4Inv (s.execIns op) := by
  cases op with
  | sched d ev data =>
    rcases schedule_snd_cases s d ev data with hcase | ⟨t', ev', hcase⟩
    · show C4Inv (s.schedule d ev data).2
      rw [hcase]; exact h
    · show C4Inv (s.schedule d ev data).2
      rw [hcase]; exact C4Inv_pushEntry h t' ev'
  | ins ev d sc sys =>
    rcases insert_event_snd_cases s ev d sc sys with hcase | ⟨t', ev', hcase⟩
    · show C4Inv (s.insert_event ev d sc sys).2
      rw [hcase]; exact h
    · show C4Inv (s.insert_event ev d sc sys).2
      rw [hcase]; exact C4Inv_pushEntry h t' ev'

theorem C4Inv_buildSched (t0 : Int) (ops : List InsOp) :
    C4Inv (buildSched t0 ops) := by
  unfold buildSched
  have hfresh : C4Inv (Scheduler.fresh t0) := by
    exact ⟨isHeap_nil, List.nodup_nil, fun e he => (List.not_mem_nil e he).elim, rfl⟩
  revert hfresh
  generalize Scheduler.fresh t0 = s
  induction ops generalizing s with
  | nil => intro h; exact h
  | cons op rest ih =>
    intro h
    exact ih _ (C4Inv_execIns h op)

theorem mem_of_getD_root {l : List Entry} (hq : l ≠ []) :
    l.getD 0 default ∈ l := by
  have h0 : 0 < l.length := List.length_pos.mpr hq
  rw [List.getD_eq_getElem _ _ h0]
  exact List.getElem_mem h0

theorem isHeap_root_le_mem {l : List Entry} (hh : IsHeap l) {x : Entry}
    (hx : x ∈ l) : entryLe (l.getD 0 default) x := by
  obtain ⟨j, hj, hxe⟩ := List.mem_iff_getElem.mp hx
  have := isHeap_root_le hh j hj
  rwa [List.getD_eq_getElem _ _ hj, hxe] at this

theorem C4_step {s : Scheduler} (h : C4Inv s) {e : Entry} {s' : Scheduler}
    (hstep : s.stepE = (some e, s')) :
    C4Inv s' ∧ e ∈ s.queue ∧
    (∀ x ∈ s'.queue, entryLe e x ∧ x.idx ≠ e.idx) ∧
    (∀ x ∈ s'.queue, x ∈ s.queue) := by
  obtain ⟨hh, hnd, hb, hc⟩ := h
  by_cases hq : s.queue = []
  · exfalso
    unfold Scheduler.stepE at hstep
    rw [dif_pos hq] at hstep
    simp at hstep
  · rw [Scheduler.stepE_empty_cancelled hq hc] at hstep
    injection hstep with h1 h2
    injection h1 with h1
    subst h2
    subst h1
    have hperm := heappop_perm hq
    have hmemq : ∀ x ∈ (heappop s.queue).2, x ∈ s.queue := fun x hx =>
      hperm.mem_iff.mpr (List.mem_cons_of_mem _ hx)
    have hndp : ((s.queue.getD 0 default).idx ::
        (heappop s.queue).2.map Entry.idx).Nodup := by
      have := (hperm.map Entry.idx).nodup_iff.mp hnd
      simpa using this
    refine ⟨⟨heappop_isHeap hh, (List.nodup_cons.mp hndp).2, ?_, hc⟩,
      mem_of_getD_root hq, ?_, hmemq⟩
    · intro x hx
      exact hb x (hmemq x hx)
    · intro x hx
      refine ⟨isHeap_root_le_mem hh (hmemq x hx), ?_⟩
      intro hcon
      exact (List.nodup_cons.mp hndp).1 (hcon ▸ List.mem_map_of_mem Entry.idx hx)

theorem stepsTrace_spec :
    ∀ (n : Nat) (s : Scheduler), C4Inv s →
      List.Chain' (fun p q : Entry × Int =>
          entryLe p.1 q.1 ∧ p.1.idx ≠ q.1.idx) (s.stepsTrace n) ∧
      (∀ p ∈ s.stepsTrace n, p.2 = p.1.time) ∧
      (∀ p ∈ s.stepsTrace n, p.1 ∈ s.queue) := by
  intro n
  induction n with
  | zero =>
    intro s _
    exact ⟨List.chain'_nil, fun p hp => (List.not_mem_nil p hp).elim,
      fun p hp => (List.not_mem_nil p hp).elim⟩
  | succ n ih =>
    intro s h
    unfold Scheduler.stepsTrace
    rcases hstep : s.stepE with ⟨r, s'⟩
    cases r with
    | none =>
      dsimp only
      exact ⟨List.chain'_nil, fun p hp => (List.not_mem_nil p hp).elim,
        fun p hp => (List.not_mem_nil p hp).elim⟩
    | some e =>
      obtain ⟨hinv', hmem, hbound, hsub⟩ := C4_step h hstep
      obtain ⟨ih1, ih2, ih3⟩ := ih s' hinv'
      dsimp only
      refine ⟨?_, ?_, ?_⟩
      · rw [List.chain'_cons']
        refine ⟨?_, ih1⟩
        intro y hy
        have hymem : y ∈ s'.stepsTrace n := List.mem_of_mem_head? hy
        have := hbound y.1 (ih3 y hymem)
        exact ⟨this.1, fun hcon => this.2 hcon.symm⟩
      · intro p hp
        rcases List.mem_cons.mp hp with hp | hp
        · subst hp
          exact Scheduler.stepE_time hstep
        · exact ih2 p hp
      · intro p hp
        rcases List.mem_cons.mp hp with hp | hp
        · subst hp
          exact hmem
        · exact hsub p.1 (ih3 p hp)

/-- **C4.** Starting from a fresh scheduler, after any sequence of
`schedule`/`insert_event` calls, successive `step()` calls return entries
in strictly increasing `(trigger_time, sequence)` order — trigger times
never decrease, and entries with equal trigger time come back in
increasing sequence number, i.e. in insertion order, since `pushEntry`
hands out the monotonically increasing `_counter` — and each successful
step sets `now` to the returned entry's trigger time. -/
theorem step_order_fifo (t0 : Int) (ops : List InsOp) (n : Nat) :
    List.Chain' (fun p q : Entry × Int =>
        p.1.time < q.1.time ∨ (p.1.time = q.1.time ∧ p.1.idx < q.1.idx))
      ((buildSched t0 ops).stepsTrace n) ∧
    ∀ p ∈ (buildSched t0 ops).stepsTrace n, p.2 = p.1.time := by
  have h := stepsTrace_spec n _ (C4Inv_buildSched t0 ops)
  refine ⟨List.Chain'.imp ?_ h.1, h.2.1⟩
  intro p q hpq
  obtain ⟨hle, hne⟩ := hpq
  unfold entryLe at hle
  omega

/-! ## C7: a cancelled id never comes back -/

/-- The persistent fact established by a successful `cancel_event(id)`:
besides well-formedness, every queue occurrence of `id` is tombstoned, and
if the lookup index still knows `id` then `id` is tombstoned.  (`step`,
`pop_event` and `cleanup` may later discard the tombstone, but only while
also removing the entry and its index record, so the invariant survives
every operation.) -/
def DeadInv (id : Nat) (s : Scheduler) : Prop :=
  (s.queue.map Entry.idx).Nodup ∧
  (∀ e ∈ s.queue, e.idx < s.counter) ∧
  (∀ p ∈ s.eventMap, p.1 < s.counter) ∧
  id < s.counter ∧
  (id ∈ s.cancelled ∨ ∀ e ∈ s.queue, e.idx ≠ id) ∧
  ((∃ p ∈ s.eventMap, p.1 = id) → id ∈ s.cancelled)

instance (id : Nat) (s : Scheduler) : Decidable (DeadInv id s) := by
  unfold DeadInv; infer_instance

theorem mem_mapErase {p : Nat × Int × Event} {k : Nat} {m : EMap} :
    p ∈ mapErase k m ↔ p ∈ m ∧ p.1 ≠ k := by
  unfold mapErase
  simp [List.mem_filter]

theorem mem_mapInsert {p : Nat × Int × Event} {k : Nat} {v : Int × Event}
    {m : EMap} : p ∈ mapInsert k v m ↔ p = (k, v) ∨ (p ∈ m ∧ p.1 ≠ k) := by
  unfold mapInsert
  simp [mem_mapErase]

theorem mapFind_some_mem {k : Nat} {m : EMap} {v : Int × Event}
    (h : mapFind k m = some v) : (k, v) ∈ m := by
  unfold mapFind at h
  rcases h2 : m.find? (fun p => p.1 = k) with _ | p
  · rw [h2] at h; simp at h
  · rw [h2] at h
    simp at h
    have hk := List.find?_some h2
    simp at hk
    have hm := List.mem_of_find?_eq_some h2
    have : p = (k, v) := by
      rcases p with ⟨pk, pv⟩
      simp at hk h
      rw [hk, h]
    rwa [this] at hm

/-- `DeadInv` only inspects the queue through its multiset of entries. -/
theorem DeadInv_queue_perm {id : Nat} {s : Scheduler} {q : List Entry}
    (hperm : s.queue.Perm q) (h : DeadInv id s) :
    DeadInv id { s with queue := q } := by
  obtain ⟨h1, h2, h3, h4, h5, h6⟩ := h
  refine ⟨(hperm.map Entry.idx).nodup_iff.mp h1,
    fun e he => h2 e (hperm.mem_iff.mpr he), h3, h4, ?_, h6⟩
  rcases h5 with h5 | h5
  · exact Or.inl h5
  · exact Or.inr fun e he => h5 e (hperm.mem_iff.mpr he)

theorem DeadInv_pushEntry {id : Nat} {s : Scheduler} (h : DeadInv id s)
    (t : Int) (ev : Event) : DeadInv id (pushEntry s t ev).2 := by
  obtain ⟨h1, h2, h3, h4, h5, h6⟩ := h
  unfold pushEntry DeadInv
  dsimp only
  refine ⟨?_, ?_, ?_, by omega, ?_, ?_⟩
  · have hperm := (heappush_perm s.queue ⟨t, s.counter, ev⟩).map Entry.idx
    rw [hperm.nodup_iff]
    simp only [List.map_cons]
    rw [List.nodup_cons]
    refine ⟨?_, h1⟩
    intro hcon
    obtain ⟨e, he, heq⟩ := List.mem_map.mp hcon
    have := h2 e he
    omega
  · intro e he
    rw [heappush_mem] at he
    rcases he with he | he
    · subst he; simp
    · have := h2 e he; omega
  · intro p hp
    rw [mem_mapInsert] at hp
    rcases hp with hp | hp
    · subst hp; simp
    · have := h3 p hp.1; omega
  · rcases h5 with h5 | h5
    · exact Or.inl h5
    · refine Or.inr ?_
      intro e he
      rw [heappush_mem] at he
      rcases he with he | he
      · subst he
        show s.counter ≠ id
        omega
      · exact h5 e he
  · intro hex
    obtain ⟨p, hp, hpk⟩ := hex
    rw [mem_mapInsert] at hp
    rcases hp with hp | hp
    · subst hp
      simp at hpk
      omega
    · exact h6 ⟨p, hp.1, hpk⟩

theorem DeadInv_schedule {id : Nat} {s : Scheduler} (h : DeadInv id s)
    (d : Delay) (ev : Option Event) (data : Nat) :
    DeadInv id (s.schedule d ev data).2 := by
  rcases schedule_snd_cases s d ev data with hcase | ⟨t', ev', hcase⟩
  · rw [hcase]; exact h
  · rw [hcase]; exact DeadInv_pushEntry h t' ev'

theorem DeadInv_insert_event {id : Nat} {s : Scheduler} (h : DeadInv id s)
    (ev : Event) (d : Delay) (sc : Option Scope) (sys : Option Entity) :
    DeadInv id (s.insert_event ev d sc sys).2 := by
  rcases insert_event_snd_cases s ev d sc sys with hcase | ⟨t', ev', hcase⟩
  · rw [hcase]; exact h
  · rw [hcase]; exact DeadInv_pushEntry h t' ev'

theorem heappop_cons_perm {q : List Entry} {e : Entry} {rest : List Entry}
    (hq : q ≠ []) (heq : heappop q = (some e, rest)) :
    q.Perm (e :: rest) := by
  have h1 := heappop_fst hq
  rw [heq] at h1
  have h2 : e = q.getD 0 default := by simpa using h1
  have h3 := heappop_perm hq
  rw [heq] at h3
  rw [h2]
  exact h3

theorem DeadInv_stepE_aux :
    ∀ (n : Nat) (id : Nat) (s : Scheduler), s.queue.length = n →
      DeadInv id s →
      DeadInv id (s.stepE).2 ∧ (∀ e, (s.stepE).1 = some e → e.idx ≠ id) := by
  intro n
  induction n using Nat.strong_induction_on with
  | _ n ih =>
    intro id s hn h
    subst hn
    obtain ⟨h1, h2, h3, h4, h5, h6⟩ := h
    unfold Scheduler.stepE
    by_cases hq : s.queue = []
    · rw [dif_pos hq]
      exact ⟨⟨h1, h2, h3, h4, h5, h6⟩, by intro e he; simp at he⟩
    · rw [dif_neg hq]
      split
      · next heq =>
        have := heappop_fst hq
        rw [heq] at this
        simp at this
      · next e0 q heq =>
        have hperm : s.queue.Perm (e0 :: q) := heappop_cons_perm hq heq
        have hlen : q.length + 1 = s.queue.length := by
          have hh : (heappop s.queue).2 = q := by rw [heq]
          rw [← hh]; exact heappop_length hq
        have hndc : (e0.idx :: q.map Entry.idx).Nodup := by
          have := (hperm.map Entry.idx).nodup_iff.mp h1
          simpa using this
        have hmemq : ∀ x ∈ q, x ∈ s.queue := fun x hx =>
          hperm.mem_iff.mpr (List.mem_cons_of_mem _ hx)
        have he0 : e0 ∈ s.queue := hperm.mem_iff.mpr (List.mem_cons_self _ _)
        by_cases hcan : e0.idx ∈ s.cancelled
        · rw [if_pos hcan]
          refine ih q.length (by omega) id
            ⟨s.time, q, s.counter, s.cancelled.erase e0.idx,
              mapErase e0.idx s.eventMap⟩ rfl ?_
          refine ⟨(List.nodup_cons.mp hndc).2,
            fun x hx => h2 x (hmemq x hx),
            fun p hp => h3 p (mem_mapErase.mp hp).1, h4, ?_, ?_⟩
          · by_cases hid : e0.idx = id
            · refine Or.inr ?_
              intro x hx hcon
              exact (List.nodup_cons.mp hndc).1
                (hid ▸ hcon ▸ List.mem_map_of_mem Entry.idx hx)
            · rcases h5 with h5 | h5
              · exact Or.inl (Finset.mem_erase.mpr ⟨fun hcon => hid hcon.symm, h5⟩)
              · exact Or.inr fun x hx => h5 x (hmemq x hx)
          · intro hex
            obtain ⟨p, hp, hpk⟩ := hex
            obtain ⟨hpm, hpne⟩ := mem_mapErase.mp hp
            have hidne : e0.idx ≠ id := fun hcon => hpne (hpk.trans hcon.symm)
            exact Finset.mem_erase.mpr
              ⟨fun hcon => hidne hcon.symm, h6 ⟨p, hpm, hpk⟩⟩
        · rw [if_neg hcan]
          have hidne : e0.idx ≠ id := by
            intro hcon
            rcases h5 with h5 | h5
            · exact hcan (hcon ▸ h5)
            · exact h5 e0 he0 hcon
          constructor
          · refine ⟨(List.nodup_cons.mp hndc).2,
              fun x hx => h2 x (hmemq x hx),
              fun p hp => h3 p (mem_mapErase.mp hp).1, h4, ?_, ?_⟩
            · rcases h5 with h5 | h5
              · exact Or.inl h5
              · exact Or.inr fun x hx => h5 x (hmemq x hx)
            · intro hex
              obtain ⟨p, hp, hpk⟩ := hex
              exact h6 ⟨p, (mem_mapErase.mp hp).1, hpk⟩
          · intro e he
            injection he with he
            subst he
            exact hidne

theorem DeadInv_stepE {id : Nat} {s : Scheduler} (h : DeadInv id s) :
    DeadInv id (s.stepE).2 ∧ (∀ e, (s.stepE).1 = some e → e.idx ≠ id) :=
  DeadInv_stepE_aux s.queue.length id s rfl h

theorem DeadInv_runLoop_aux :
    ∀ (n : Nat) (id : Nat) (s : Scheduler) (u : Option Int),
      s.queue.length = n → DeadInv id s →
      DeadInv id (s.runLoop u).2 := by
  intro n
  induction n using Nat.strong_induction_on with
  | _ n ih =>
    intro id s u hn h
    subst hn
    unfold Scheduler.runLoop
    by_cases hq : s.queue = []
    · rw [dif_pos hq]; exact h
    · rw [dif_neg hq]
      have hlt : (s.stepE).2.queue.length < s.queue.length :=
        Scheduler.stepE_queue_lt s hq
      have hs' := (DeadInv_stepE h).1
      cases u with
      | none =>
        dsimp only
        exact ih _ hlt id _ none rfl hs'
      | some v =>
        dsimp only
        by_cases hu : v < (s.queue.getD 0 default).time
        · rw [if_pos hu]; exact h
        · rw [if_neg hu]
          exact ih _ hlt id _ (some v) rfl hs'

theorem DeadInv_run {id : Nat} {s : Scheduler} (h : DeadInv id s)
    (u : Option Int) : DeadInv id (s.run u) := by
  unfold Scheduler.run
  have hloop := DeadInv_runLoop_aux s.queue.length id s u rfl h
  cases u with
  | none => exact hloop
  | some v =>
    dsimp only
    by_cases ht : (s.runLoop (some v)).2.time < v
    · rw [if_pos ht]
      obtain ⟨h1, h2, h3, h4, h5, h6⟩ := hloop
      exact ⟨h1, h2, h3, h4, h5, h6⟩
    · rw [if_neg ht]; exact hloop

theorem foldl_heappush_perm :
    ∀ (temp q : List Entry), (temp.foldl heappush q).Perm (q ++ temp) := by
  intro temp
  induction temp with
  | nil => intro q; simp
  | cons t ts ih =>
    intro q
    simp only [List.foldl_cons]
    refine (ih (heappush q t)).trans ?_
    have h1 : (heappush q t ++ ts).Perm ((t :: q) ++ ts) :=
      (heappush_perm q t).append_right ts
    refine h1.trans ?_
    simp only [List.cons_append]
    exact (List.perm_middle).symm

/-- The invariant carried through `pop_event`'s scan: `DeadInv` holds of
the state with the held-aside `temp` entries counted as part of the
queue. -/
def PopInv (id : Nat) (s : Scheduler) (temp : List Entry) : Prop :=
  DeadInv id { s with queue := s.queue ++ temp }

theorem DeadInv_popLoop_aux :
    ∀ (n : Nat) (id : Nat) (s : Scheduler) (temp : List Entry)
      (sc : Option Scope) (sys : Option Entity) (incl : Bool),
      s.queue.length = n → PopInv id s temp →
      (∀ err, (s.popLoop temp sc sys incl).1 = .error err →
        DeadInv id (s.popLoop temp sc sys incl).2.1) ∧
      (∀ fo, (s.popLoop temp sc sys incl).1 = .ok fo →
        PopInv id (s.popLoop temp sc sys incl).2.1
          (s.popLoop temp sc sys incl).2.2 ∧
        (∀ e, fo = some e → e.idx ≠ id)) := by
  intro n
  induction n using Nat.strong_induction_on with
  | _ n ih =>
    intro id s temp sc sys incl hn h
    subst hn
    obtain ⟨h1, h2, h3, h4, h5, h6⟩ := h
    simp only at h1 h2 h3 h5 h6
    unfold Scheduler.popLoop
    by_cases hq : s.queue = []
    · rw [dif_pos hq]
      refine ⟨by intro err herr; simp at herr, ?_⟩
      intro fo hfo
      constructor
      · exact ⟨h1, h2, h3, h4, h5, h6⟩
      · intro e he
        simp at hfo
        rw [← hfo] at he
        simp at he
    · rw [dif_neg hq]
      split
      · next heq =>
        have := heappop_fst hq
        rw [heq] at this
        simp at this
      · next e0 q heq =>
        have hperm : s.queue.Perm (e0 :: q) := heappop_cons_perm hq heq
        have hlen : q.length + 1 = s.queue.length := by
          have hh : (heappop s.queue).2 = q := by rw [heq]
          rw [← hh]; exact heappop_length hq
        have hpermA : (s.queue ++ temp).Perm (e0 :: (q ++ temp)) := by
          calc (s.queue ++ temp).Perm ((e0 :: q) ++ temp) :=
                hperm.append_right temp
            _ = e0 :: (q ++ temp) := by simp
        have hndc : (e0.idx :: (q ++ temp).map Entry.idx).Nodup := by
          have := (hpermA.map Entry.idx).nodup_iff.mp h1
          simpa using this
        have hmemq : ∀ x ∈ q ++ temp, x ∈ s.queue ++ temp := fun x hx =>
          hpermA.mem_iff.mpr (List.mem_cons_of_mem _ hx)
        have he0 : e0 ∈ s.queue ++ temp :=
          hpermA.mem_iff.mpr (List.mem_cons_self _ _)
        by_cases hcan : e0.idx ∈ s.cancelled
        · rw [if_pos hcan]
          refine ih q.length (by omega) id
            ⟨s.time, q, s.counter, s.cancelled.erase e0.idx,
              mapErase e0.idx s.eventMap⟩ temp sc sys incl rfl ?_
          refine ⟨(List.nodup_cons.mp hndc).2,
            fun x hx => h2 x (hmemq x hx),
            fun p hp => h3 p (mem_mapErase.mp hp).1, h4, ?_, ?_⟩
          · by_cases hid : e0.idx = id
            · refine Or.inr ?_
              intro x hx hcon
              exact (List.nodup_cons.mp hndc).1
                (hid ▸ hcon ▸ List.mem_map_of_mem Entry.idx hx)
            · rcases h5 with h5 | h5
              · exact Or.inl (Finset.mem_erase.mpr ⟨fun hcon => hid hcon.symm, h5⟩)
              · exact Or.inr fun x hx => h5 x (hmemq x hx)
          · intro hex
            obtain ⟨p, hp, hpk⟩ := hex
            obtain ⟨hpm, hpne⟩ := mem_mapErase.mp hp
            have hidne : e0.idx ≠ id := fun hcon => hpne (hpk.trans hcon.symm)
            exact Finset.mem_erase.mpr
              ⟨fun hcon => hidne hcon.symm, h6 ⟨p, hpm, hpk⟩⟩
        · rw [if_neg hcan]
          have hidne : e0.idx ≠ id := by
            intro hcon
            rcases h5 with h5 | h5
            · exact hcan (hcon ▸ h5)
            · exact h5 e0 he0 hcon
          have hDq : DeadInv id { s with queue := q } := by
            refine ⟨?_, fun x hx => h2 x (hmemq x (by simp [hx])),
              h3, h4, ?_, h6⟩
            · have hsub : (q.map Entry.idx).Sublist ((q ++ temp).map Entry.idx) := by
                simp only [List.map_append]
                exact (q.map Entry.idx).sublist_append_left _
              exact hsub.nodup (List.nodup_cons.mp hndc).2
            · rcases h5 with h5 | h5
              · exact Or.inl h5
              · exact Or.inr fun x hx => h5 x (hmemq x (by simp [hx]))
          have hPq : PopInv id { s with queue := q } temp := by
            refine ⟨(List.nodup_cons.mp hndc).2,
              fun x hx => h2 x (hmemq x hx),
              h3, h4, ?_, h6⟩
            rcases h5 with h5 | h5
            · exact Or.inl h5
            · exact Or.inr fun x hx => h5 x (hmemq x hx)
          rcases hms : matchesSystem sys e0.ev with err | ms
          · dsimp only
            refine ⟨?_, ?_⟩
            · intro err2 _
              exact hDq
            · intro fo hfo
              simp at hfo
          · dsimp only
            by_cases hmatch : matchesScope sc incl e0.ev && ms
            · rw [if_pos hmatch]
              refine ⟨by intro err herr; simp at herr, ?_⟩
              intro fo hfo
              simp only [Except.ok.injEq] at hfo
              subst hfo
              refine ⟨hPq, ?_⟩
              intro e he
              injection he with he
              subst he
              exact hidne
            · rw [if_neg hmatch]
              have hpermC : (q ++ (temp ++ [e0])).Perm (e0 :: (q ++ temp)) := by
                rw [← List.append_assoc]
                exact List.perm_append_singleton e0 (q ++ temp)
              have hmemC : ∀ x ∈ q ++ (temp ++ [e0]), x ∈ s.queue ++ temp := by
                intro x hx
                rcases List.mem_cons.mp (hpermC.mem_iff.mp hx) with hx | hx
                · subst hx; exact he0
                · exact hmemq x hx
              have hPq2 : PopInv id { s with queue := q } (temp ++ [e0]) := by
                unfold PopInv DeadInv
                dsimp only
                refine ⟨?_, fun x hx => h2 x (hmemC x hx), h3, h4, ?_, h6⟩
                · exact (hpermC.map Entry.idx).nodup_iff.mpr (by simpa using hndc)
                · rcases h5 with h5 | h5
                  · exact Or.inl h5
                  · exact Or.inr fun x hx => h5 x (hmemC x hx)
              exact ih q.length (by omega) id _ (temp ++ [e0]) sc sys incl rfl hPq2

theorem DeadInv_mapErase {id : Nat} {s : Scheduler} (h : DeadInv id s)
    (k : Nat) : DeadInv id { s with eventMap := mapErase k s.eventMap } := by
  obtain ⟨h1, h2, h3, h4, h5, h6⟩ := h
  refine ⟨h1, h2, fun p hp => h3 p (mem_mapErase.mp hp).1, h4, h5, ?_⟩
  intro hex
  obtain ⟨p, hp, hpk⟩ := hex
  exact h6 ⟨p, (mem_mapErase.mp hp).1, hpk⟩

theorem DeadInv_pop_eventE {id : Nat} {s : Scheduler} (h : DeadInv id s)
    (sc : Option Scope) (sys : Option Entity) (incl : Bool) :
    DeadInv id (s.pop_eventE sc sys incl).2 ∧
    (∀ e, (s.pop_eventE sc sys incl).1 = .ok (some e) → e.idx ≠ id) := by
  unfold Scheduler.pop_eventE
  by_cases hq : s.queue = []
  · rw [if_pos hq]
    exact ⟨h, by intro e he; simp at he⟩
  · rw [if_neg hq]
    have hP0 : PopInv id s [] := by
      unfold PopInv
      simpa using h
    have hloop := DeadInv_popLoop_aux s.queue.length id s [] sc sys incl rfl hP0
    rcases hres : s.popLoop [] sc sys incl with ⟨r, st, temp⟩
    cases r with
    | error err =>
      have := hloop.1 err (by rw [hres])
      rw [hres] at this
      exact ⟨this, by intro e he; simp at he⟩
    | ok fo =>
      have hok := hloop.2 fo (by rw [hres])
      rw [hres] at hok
      obtain ⟨hPst, hfo⟩ := hok
      have hfold : DeadInv id { st with queue := temp.foldl heappush st.queue } := by
        have hperm : (st.queue ++ temp).Perm (temp.foldl heappush st.queue) :=
          (foldl_heappush_perm temp st.queue).symm
        exact DeadInv_queue_perm (s := { st with queue := st.queue ++ temp })
          hperm hPst
      cases fo with
      | none => exact ⟨hfold, by intro e he; simp at he⟩
      | some e =>
        refine ⟨DeadInv_mapErase hfold e.idx, ?_⟩
        intro e2 he2
        simp only [Except.ok.injEq, Option.some.injEq] at he2
        subst he2
        exact hfo e rfl

theorem DeadInv_cancel_event {id : Nat} {s : Scheduler} (h : DeadInv id s)
    (j : Nat) : DeadInv id (s.cancel_event j).2 := by
  unfold Scheduler.cancel_event
  by_cases hc : j ∈ s.cancelled
  · rw [if_pos hc]; exact h
  · rw [if_neg hc]
    by_cases hm : (mapFind j s.eventMap).isNone
    · rw [if_pos hm]; exact h
    · rw [if_neg hm]
      obtain ⟨h1, h2, h3, h4, h5, h6⟩ := h
      refine ⟨h1, h2, h3, h4, ?_, ?_⟩
      · rcases h5 with h5 | h5
        · exact Or.inl (Finset.mem_insert_of_mem h5)
        · exact Or.inr h5
      · intro hex
        exact Finset.mem_insert_of_mem (h6 hex)

theorem cancelledFold_subset (l : List Entry) :
    ∀ (p : Nat × Finset Nat),
      p.2 ⊆ (l.foldl (fun (p : Nat × Finset Nat) e =>
        if e.idx ∈ p.2 then p else (p.1 + 1, insert e.idx p.2)) p).2 := by
  induction l with
  | nil => intro p; exact Finset.Subset.refl _
  | cons e rest ih =>
    intro p
    simp only [List.foldl_cons]
    by_cases hc : e.idx ∈ p.2
    · rw [if_pos hc]; exact ih p
    · rw [if_neg hc]
      refine Finset.Subset.trans ?_ (ih (p.1 + 1, insert e.idx p.2))
      exact Finset.subset_insert _ _

theorem DeadInv_delete_events {id : Nat} {s : Scheduler} (h : DeadInv id s)
    (sc : Option Scope) (sys : Option Entity) (incl : Bool) :
    DeadInv id (s.delete_events sc sys incl).2 := by
  unfold Scheduler.delete_events
  by_cases hf : sc = none ∧ sys = none
  · rw [if_pos hf]; exact h
  · rw [if_neg hf]
    cases hget : s.get_eventsE sc sys incl with
    | error err => exact h
    | ok matching =>
      dsimp only
      obtain ⟨h1, h2, h3, h4, h5, h6⟩ := h
      have hsub := cancelledFold_subset matching (0, s.cancelled)
      refine ⟨h1, h2, h3, h4, ?_, ?_⟩
      · rcases h5 with h5 | h5
        · exact Or.inl (hsub h5)
        · exact Or.inr h5
      · intro hex
        exact hsub (h6 hex)

theorem DeadInv_reschedule_event {id : Nat} {s : Scheduler} (h : DeadInv id s)
    (j : Nat) (delta : RDelta) :
    DeadInv id (s.reschedule_event j delta).2 := by
  unfold Scheduler.reschedule_event
  by_cases hc : j ∈ s.cancelled
  · rw [if_pos hc]; exact h
  · rw [if_neg hc]
    cases hm : mapFind j s.eventMap with
    | none => exact h
    | some v =>
      obtain ⟨old, ev⟩ := v
      obtain ⟨h1, h2, h3, h4, h5, h6⟩ := h
      have hjlt : j < s.counter := h3 _ (mapFind_some_mem hm)
      cases delta with
      | other => exact ⟨h1, h2, h3, h4, h5, h6⟩
      | secs v =>
        unfold DeadInv
        dsimp only
        refine ⟨?_, ?_, ?_, by omega, ?_, ?_⟩
        · have hperm := (heappush_perm s.queue ⟨old + v, s.counter, ev⟩).map Entry.idx
          rw [hperm.nodup_iff]
          simp only [List.map_cons]
          rw [List.nodup_cons]
          refine ⟨?_, h1⟩
          intro hcon
          obtain ⟨e, he, heq⟩ := List.mem_map.mp hcon
          have := h2 e he
          omega
        · intro e he
          rw [heappush_mem] at he
          rcases he with he | he
          · subst he; simp
          · have := h2 e he; omega
        · intro p hp
          rw [mem_mapInsert] at hp
          rcases hp with hp | hp
          · subst hp; simp
          · have := h3 p hp.1; omega
        · rcases h5 with h5 | h5
          · exact Or.inl (Finset.mem_insert_of_mem h5)
          · refine Or.inr ?_
            intro e he
            rw [heappush_mem] at he
            rcases he with he | he
            · subst he
              show s.counter ≠ id
              omega
            · exact h5 e he
        · intro hex
          obtain ⟨p, hp, hpk⟩ := hex
          rw [mem_mapInsert] at hp
          rcases hp with hp | hp
          · subst hp; simp at hpk; omega
          · exact Finset.mem_insert_of_mem (h6 ⟨p, hp.1, hpk⟩)
      | td v =>
        unfold DeadInv
        dsimp only
        refine ⟨?_, ?_, ?_, by omega, ?_, ?_⟩
        · have hperm := (heappush_perm s.queue ⟨old + v, s.counter, ev⟩).map Entry.idx
          rw [hperm.nodup_iff]
          simp only [List.map_cons]
          rw [List.nodup_cons]
          refine ⟨?_, h1⟩
          intro hcon
          obtain ⟨e, he, heq⟩ := List.mem_map.mp hcon
          have := h2 e he
          omega
        · intro e he
          rw [heappush_mem] at he
          rcases he with he | he
          · subst he; simp
          · have := h2 e he; omega
        · intro p hp
          rw [mem_mapInsert] at hp
          rcases hp with hp | hp
          · subst hp; simp
          · have := h3 p hp.1; omega
        · rcases h5 with h5 | h5
          · exact Or.inl (Finset.mem_insert_of_mem h5)
          · refine Or.inr ?_
            intro e he
            rw [heappush_mem] at he
            rcases he with he | he
            · subst he
              show s.counter ≠ id
              omega
            · exact h5 e he
        · intro hex
          obtain ⟨p, hp, hpk⟩ := hex
          rw [mem_mapInsert] at hp
          rcases hp with hp | hp
          · subst hp; simp at hpk; omega
          · exact Finset.mem_insert_of_mem (h6 ⟨p, hp.1, hpk⟩)

theorem DeadInv_cleanup {id : Nat} {s : Scheduler} (h : DeadInv id s) :
    DeadInv id (s.cleanup).2 := by
  unfold Scheduler.cleanup
  by_cases hc : s.cancelled = ∅
  · rw [if_pos hc]; exact h
  · rw [if_neg hc]
    obtain ⟨h1, h2, h3, h4, h5, h6⟩ := h
    dsimp only
    have hperm := heapify_perm (s.queue.filter (fun e => e.idx ∉ s.cancelled))
    have hsub : ∀ x ∈ heapify (s.queue.filter (fun e => e.idx ∉ s.cancelled)),
        x ∈ s.queue ∧ x.idx ∉ s.cancelled := by
      intro x hx
      have := hperm.mem_iff.mp hx
      rw [List.mem_filter] at this
      exact ⟨this.1, by simpa using this.2⟩
    refine ⟨?_, fun x hx => h2 x (hsub x hx).1, ?_, h4, ?_, ?_⟩
    · rw [(hperm.map Entry.idx).nodup_iff]
      exact ((s.queue.filter_sublist).map Entry.idx).nodup h1
    · intro p hp
      rw [List.mem_filter] at hp
      exact h3 p hp.1
    · refine Or.inr ?_
      intro x hx hcon
      obtain ⟨hxq, hxc⟩ := hsub x hx
      rcases h5 with h5 | h5
      · exact hxc (hcon ▸ h5)
      · exact h5 x hxq hcon
    · intro hex
      obtain ⟨p, hp, hpk⟩ := hex
      rw [List.mem_filter] at hp
      exfalso
      have hpc : p.1 ∉ s.cancelled := by simpa using hp.2
      exact hpc (hpk ▸ h6 ⟨p, hp.1, hpk⟩)

/-- Any public scheduler call that can follow a cancellation (the pure
look-aheads `peek_events`/`get_events` do not change state and are treated
as queries below; `pop_event_for_system` is `pop_event` with fixed
arguments). -/
inductive Op where
  | sched (d : Delay) (ev : Option Event) (data : Nat)
  | ins (ev : Event) (d : Delay) (sc : Option Scope) (sys : Option Entity)
  | step
  | runOp (u : Option Int)
  | pop (sc : Option Scope) (sys : Option Entity) (incl : Bool)
  | cancel (j : Nat)
  | delete (sc : Option Scope) (sys : Option Entity) (incl : Bool)
  | resched (j : Nat) (delta : RDelta)
  | cleanupOp
  | setNow (t : Int)

/-- The state effect of one scheduler call. -/
def Scheduler.exec (s : Scheduler) : Op → Scheduler
  | .sched d ev data => (s.schedule d ev data).2
  | .ins ev d sc sys => (s.insert_event ev d sc sys).2
  | .step => (s.stepE).2
  | .runOp u => s.run u
  | .pop sc sys incl => (s.pop_eventE sc sys incl).2
  | .cancel j => (s.cancel_event j).2
  | .delete sc sys incl => (s.delete_events sc sys incl).2
  | .resched j delta => (s.reschedule_event j delta).2
  | .cleanupOp => (s.cleanup).2
  | .setNow t => { s with time := t }

def Scheduler.execs (s : Scheduler) (ops : List Op) : Scheduler :=
  ops.foldl Scheduler.exec s

theorem DeadInv_exec {id : Nat} {s : Scheduler} (h : DeadInv id s)
    (op : Op) : DeadInv id (s.exec op) := by
  cases op with
  | sched d ev data => exact DeadInv_schedule h d ev data
  | ins ev d sc sys => exact DeadInv_insert_event h ev d sc sys
  | step => exact (DeadInv_stepE h).1
  | runOp u => exact DeadInv_run h u
  | pop sc sys incl => exact (DeadInv_pop_eventE h sc sys incl).1
  | cancel j => exact DeadInv_cancel_event h j
  | delete sc sys incl => exact DeadInv_delete_events h sc sys incl
  | resched j delta => exact DeadInv_reschedule_event h j delta
  | cleanupOp => exact DeadInv_cleanup h
  | setNow t =>
    obtain ⟨h1, h2, h3, h4, h5, h6⟩ := h
    exact ⟨h1, h2, h3, h4, h5, h6⟩

theorem DeadInv_execs {id : Nat} :
    ∀ (ops : List Op) (s : Scheduler), DeadInv id s →
      DeadInv id (s.execs ops) := by
  intro ops
  induction ops with
  | nil => intro s h; exact h
  | cons op rest ih =>
    intro s h
    exact ih _ (DeadInv_exec h op)

theorem peekLoop_mem (c : Finset Nat) (sc : Option Scope)
    (sys : Option Entity) (lim : Option Nat) (incl : Bool) :
    ∀ (queue acc r : List Entry),
      Scheduler.peekLoop c sc sys lim incl queue acc = .ok r →
      ∀ e ∈ r, e ∈ acc ∨ (e ∈ queue ∧ e.idx ∉ c) := by
  intro queue
  induction queue with
  | nil =>
    intro acc r hr e he
    unfold Scheduler.peekLoop at hr
    simp only [Except.ok.injEq] at hr
    subst hr
    exact Or.inl he
  | cons e0 rest ih =>
    intro acc r hr e he
    unfold Scheduler.peekLoop at hr
    by_cases hcan : e0.idx ∈ c
    · rw [if_pos hcan] at hr
      rcases ih acc r hr e he with h | h
      · exact Or.inl h
      · exact Or.inr ⟨List.mem_cons_of_mem _ h.1, h.2⟩
    · rw [if_neg hcan] at hr
      have hlift : (e ∈ acc ∨ (e ∈ rest ∧ e.idx ∉ c)) →
          e ∈ acc ∨ (e ∈ e0 :: rest ∧ e.idx ∉ c) := by
        intro hres
        rcases hres with h | h
        · exact Or.inl h
        · exact Or.inr ⟨List.mem_cons_of_mem _ h.1, h.2⟩
      by_cases hsc2 : !matchesScope sc incl e0.ev
      · rw [if_pos hsc2] at hr
        exact hlift (ih acc r hr e he)
      · rw [if_neg hsc2] at hr
        cases hms : matchesSystem sys e0.ev with
        | error err => rw [hms] at hr; simp at hr
        | ok ms =>
          rw [hms] at hr
          dsimp only at hr
          by_cases hb : !ms
          · rw [if_pos hb] at hr
            exact hlift (ih acc r hr e he)
          · rw [if_neg hb] at hr
            have hacc2 : ∀ (hr2 : Scheduler.peekLoop c sc sys lim incl rest
                (acc ++ [e0]) = .ok r), e ∈ acc ∨ (e ∈ e0 :: rest ∧ e.idx ∉ c) := by
              intro hr2
              rcases ih (acc ++ [e0]) r hr2 e he with h | h
              · rcases List.mem_append.mp h with h | h
                · exact Or.inl h
                · rw [List.mem_singleton] at h
                  subst h
                  exact Or.inr ⟨List.mem_cons_self _ _, hcan⟩
              · exact Or.inr ⟨List.mem_cons_of_mem _ h.1, h.2⟩
            cases lim with
            | none => exact hacc2 hr
            | some nl =>
              dsimp only at hr
              by_cases hl : nl ≤ (acc ++ [e0]).length
              · rw [if_pos hl] at hr
                simp only [Except.ok.injEq] at hr
                subst hr
                rcases List.mem_append.mp he with h | h
                · exact Or.inl h
                · rw [List.mem_singleton] at h
                  subst h
                  exact Or.inr ⟨List.mem_cons_self _ _, hcan⟩
              · rw [if_neg hl] at hr
                exact hacc2 hr

theorem getLoop_mem (c : Finset Nat) (sc : Option Scope)
    (sys : Option Entity) (incl : Bool) :
    ∀ (queue acc r : List Entry),
      Scheduler.getLoop c sc sys incl queue acc = .ok r →
      ∀ e ∈ r, e ∈ acc ∨ (e ∈ queue ∧ e.idx ∉ c) := by
  intro queue
  induction queue with
  | nil =>
    intro acc r hr e he
    unfold Scheduler.getLoop at hr
    simp only [Except.ok.injEq] at hr
    subst hr
    exact Or.inl he
  | cons e0 rest ih =>
    intro acc r hr e he
    unfold Scheduler.getLoop at hr
    have hlift : (e ∈ acc ∨ (e ∈ rest ∧ e.idx ∉ c)) →
        e ∈ acc ∨ (e ∈ e0 :: rest ∧ e.idx ∉ c) := by
      intro hres
      rcases hres with h | h
      · exact Or.inl h
      · exact Or.inr ⟨List.mem_cons_of_mem _ h.1, h.2⟩
    by_cases hcan : e0.idx ∈ c
    · rw [if_pos hcan] at hr
      exact hlift (ih acc r hr e he)
    · rw [if_neg hcan] at hr
      by_cases hsc2 : !matchesScope sc incl e0.ev
      · rw [if_pos hsc2] at hr
        exact hlift (ih acc r hr e he)
      · rw [if_neg hsc2] at hr
        cases hms : matchesSystem sys e0.ev with
        | error err => rw [hms] at hr; simp at hr
        | ok ms =>
          rw [hms] at hr
          dsimp only at hr
          by_cases hb : !ms
          · rw [if_pos hb] at hr
            exact hlift (ih acc r hr e he)
          · rw [if_neg hb] at hr
            rcases ih (acc ++ [e0]) r hr e he with h | h
            · rcases List.mem_append.mp h with h | h
              · exact Or.inl h
              · rw [List.mem_singleton] at h
                subst h
                exact Or.inr ⟨List.mem_cons_self _ _, hcan⟩
            · exact Or.inr ⟨List.mem_cons_of_mem _ h.1, h.2⟩

theorem DeadInv_not_live {id : Nat} {s : Scheduler} (h : DeadInv id s)
    {e : Entry} (hq : e ∈ s.queue) (hc : e.idx ∉ s.cancelled) : e.idx ≠ id := by
  intro hcon
  rcases h.2.2.2.2.1 with h5 | h5
  · exact hc (hcon ▸ h5)
  · exact h5 e hq hcon

theorem DeadInv_peek {id : Nat} {s : Scheduler} (h : DeadInv id s)
    (sc : Option Scope) (sys : Option Entity) (lim : Option Nat)
    (incl : Bool) :
    ∀ r, s.peek_eventsE sc sys lim incl = .ok r → ∀ e ∈ r, e.idx ≠ id := by
  intro r hr e he
  unfold Scheduler.peek_eventsE at hr
  rcases peekLoop_mem s.cancelled sc sys lim incl s.queue [] r hr e he with
    hmem | ⟨hmem, hc⟩
  · simp at hmem
  · exact DeadInv_not_live h hmem hc

theorem DeadInv_get {id : Nat} {s : Scheduler} (h : DeadInv id s)
    (sc : Option Scope) (sys : Option Entity) (incl : Bool) :
    ∀ r, s.get_eventsE sc sys incl = .ok r → ∀ e ∈ r, e.idx ≠ id := by
  intro r hr e he
  unfold Scheduler.get_eventsE at hr
  rcases getLoop_mem s.cancelled sc sys incl (sortQueue s.queue) [] r hr e he with
    hmem | ⟨hmem, hc⟩
  · simp at hmem
  · have hq : e ∈ s.queue := by
      have hperm : (sortQueue s.queue).Perm s.queue := by
        unfold sortQueue
        exact List.mergeSort_perm s.queue _
      exact hperm.mem_iff.mp hmem
    exact DeadInv_not_live h hq hc

/-- **C7.** Once `cancel_event(id)` succeeds on a well-formed scheduler,
no continuation of the execution — any sequence of further API calls —
can ever get the entry with sequence number `id` back: `step` never pops
it, `pop_event` never returns it, and `peek_events`/`get_events` never
list it. -/
theorem cancel_event_permanent (s : Scheduler) (id : Nat) (hwf : WF s)
    (hcancel : (s.cancel_event id).1 = true) (ops : List Op) :
    (∀ e, (((s.cancel_event id).2.execs ops).stepE).1 = some e →
      e.idx ≠ id) ∧
    (∀ sc sys incl e,
      (((s.cancel_event id).2.execs ops).pop_eventE sc sys incl).1
          = .ok (some e) → e.idx ≠ id) ∧
    (∀ sc sys lim incl r,
      ((s.cancel_event id).2.execs ops).peek_eventsE sc sys lim incl
          = .ok r → ∀ e ∈ r, e.idx ≠ id) ∧
    (∀ sc sys incl r,
      ((s.cancel_event id).2.execs ops).get_eventsE sc sys incl = .ok r →
        ∀ e ∈ r, e.idx ≠ id) := by
  obtain ⟨h1, h2, h3, _⟩ := hwf
  have hstart : DeadInv id (s.cancel_event id).2 := by
    unfold Scheduler.cancel_event at hcancel ⊢
    by_cases hc : id ∈ s.cancelled
    · rw [if_pos hc] at hcancel; simp at hcancel
    · rw [if_neg hc] at hcancel ⊢
      by_cases hm : (mapFind id s.eventMap).isNone
      · rw [if_pos hm] at hcancel; simp at hcancel
      · rw [if_neg hm] at hcancel ⊢
        have hid : id < s.counter := by
          rcases hfind : mapFind id s.eventMap with _ | v
          · rw [hfind] at hm; simp at hm
          · exact h3 _ (mapFind_some_mem hfind)
        exact ⟨h1, h2, h3, hid, Or.inl (Finset.mem_insert_self id _),
          fun _ => Finset.mem_insert_self id _⟩
  have hinv := DeadInv_execs ops _ hstart
  refine ⟨?_, ?_, ?_, ?_⟩
  · exact fun e he => (DeadInv_stepE hinv).2 e he
  · exact fun sc sys incl e he => (DeadInv_pop_eventE hinv sc sys incl).2 e he
  · exact fun sc sys lim incl r hr => DeadInv_peek hinv sc sys lim incl r hr
  · exact fun sc sys incl r hr => DeadInv_get hinv sc sys incl r hr

unseal siftdownLoop Scheduler.stepE in
theorem cancel_event_permanent_witness :
    (WF (((Scheduler.fresh 0).schedule (.secs 1) none 0).2.schedule
        (.secs 2) none 0).2 ∧
      (((((Scheduler.fresh 0).schedule (.secs 1) none 0).2.schedule
        (.secs 2) none 0).2.cancel_event 0).1 = true)) ∧
    (∀ e, ((((((Scheduler.fresh 0).schedule (.secs 1) none 0).2.schedule
        (.secs 2) none 0).2.cancel_event 0).2.execs [Op.step]).stepE).1
          = some e → e.idx ≠ 0) := by
  refine ⟨⟨by decide, by decide⟩, ?_⟩
  exact (cancel_event_permanent _ 0 (by decide) (by decide) [Op.step]).1

end SimFramework
